import Mathlib

/-!
# Verification of the BusTub buffer-pool core

Shallow embedding of the three subsystems:

* the extendible hash table (`src/container/hash/extendible_hash_table.cpp`,
  primary version, the one before the related-document separator),
* the LRU-K replacer (`src/buffer/lru_k_replacer.cpp`),
* the buffer pool manager (`buffer_pool_manager_instance.cpp`).

C++ `std::shared_ptr` bucket identity is modelled by indices into an arena
list; machine integers are `Nat`/`Int`; fatal `BUSTUB_ASSERT` failures and
C++ undefined behaviour are modelled by `Option` with `none` as the fatal
outcome; the unbounded `while` loop of `InsertInternal` takes a fuel
argument, `none` standing for the non-terminating executions.
-/

namespace Bustub

/-- A bucket of the extendible hash table: capacity `size_`, local depth
`depth_`, and the key-value pairs `list_` in insertion order
(`ExtendibleHashTable::Bucket`). -/
structure Bucket (K V : Type) where
  size : Nat
  depth : Nat
  list : List (K × V)

/-- Modelled from the spec: `Bucket::IsFull` lives in the class header, which
is not among the sources; the spec says a bucket "holds up to
`bucket_capacity` pairs", so the bucket is full when it holds exactly
`size_` pairs. -/
def Bucket.isFull {K V : Type} (b : Bucket K V) : Bool :=
  b.list.length == b.size

/-- `Bucket::Find`: linear scan for the key, yielding its value. -/
def Bucket.findV {K V : Type} [DecidableEq K] (b : Bucket K V) (k : K) : Option V :=
  (b.list.find? (fun p => decide (p.1 = k))).map (fun p => p.2)

/-- The update branch of `Bucket::Insert`: overwrite the value of the first
pair whose key matches (`p.second = value`). -/
def updFirst {K V : Type} [DecidableEq K] (k : K) (v : V) :
    List (K × V) → List (K × V)
  | [] => []
  | p :: rest => if p.1 = k then (p.1, v) :: rest else p :: updFirst k v rest

/-- `Bucket::Insert`: overwrite on duplicate key (returning `false`), reject
when full (returning `false`), otherwise append (returning `true`). -/
def Bucket.insertB {K V : Type} [DecidableEq K] (b : Bucket K V) (k : K) (v : V) :
    Bucket K V × Bool :=
  if b.list.any (fun p => decide (p.1 = k)) then
    ({ b with list := updFirst k v b.list }, false)
  else if b.isFull then (b, false)
  else ({ b with list := b.list ++ [(k, v)] }, true)

/-- `Bucket::Remove`: erase the first pair whose key matches. -/
def Bucket.removeB {K V : Type} [DecidableEq K] (b : Bucket K V) (k : K) :
    Bucket K V × Bool :=
  if b.list.any (fun p => decide (p.1 = k)) then
    ({ b with list := b.list.eraseP (fun p => decide (p.1 = k)) }, true)
  else (b, false)

/-- `ExtendibleHashTable`: a directory of bucket references.  The
`std::shared_ptr` identity of buckets is modelled by indices into the arena
`store`; `dir` holds one arena index per directory entry; `hashF` stands for
`std::hash<K>`. -/
structure EHT (K V : Type) where
  hashF : K → Nat
  globalDepth : Nat
  bucketSize : Nat
  numBuckets : Nat
  store : List (Bucket K V)
  dir : List Nat

/-- The constructor: one empty bucket of local depth 0, directory of
length 1, `num_buckets_ = 1`. -/
def EHT.init {K V : Type} (hashF : K → Nat) (bucketSize : Nat) : EHT K V :=
  ⟨hashF, 0, bucketSize, 1, [⟨bucketSize, 0, []⟩], [0]⟩

/-- `IndexOf`: `std::hash<K>()(key) & ((1 << global_depth_) - 1)`. -/
def EHT.indexOf {K V : Type} (t : EHT K V) (k : K) : Nat :=
  t.hashF k &&& (2 ^ t.globalDepth - 1)

/-- `dir_[i]` (arena index of the bucket referenced by entry `i`). -/
def EHT.dirAt {K V : Type} (t : EHT K V) (i : Nat) : Nat :=
  t.dir.getD i 0

/-- Dereference an arena index. -/
def EHT.bucketOf {K V : Type} (t : EHT K V) (bid : Nat) : Bucket K V :=
  t.store.getD bid ⟨0, 0, []⟩

/-- `*dir_[i]`: the bucket referenced by directory entry `i`. -/
def EHT.bucketAt {K V : Type} (t : EHT K V) (i : Nat) : Bucket K V :=
  t.bucketOf (t.dirAt i)

/-- `Find`: look the key up in the bucket its hash routes it to. -/
def EHT.findT {K V : Type} [DecidableEq K] (t : EHT K V) (k : K) : Option V :=
  (t.bucketAt (t.indexOf k)).findV k

/-- `Remove`: remove the key from the bucket its hash routes it to. -/
def EHT.removeT {K V : Type} [DecidableEq K] (t : EHT K V) (k : K) :
    EHT K V × Bool :=
  let bid := t.dirAt (t.indexOf k)
  let r := (t.bucketOf bid).removeB k
  ({ t with store := t.store.set bid r.1 }, r.2)

/-- The redistribution loop inside the split: every item of the full bucket
is re-inserted (via `Bucket::Insert`) into `bucket_1` when its hash has the
`mask` bit set, into `bucket_0` otherwise. -/
def fillSplit {K V : Type} [DecidableEq K] (hashF : K → Nat) (mask : Nat) :
    List (K × V) → Bucket K V × Bucket K V → Bucket K V × Bucket K V
  | [], acc => acc
  | p :: rest, acc =>
    if hashF p.1 &&& mask ≠ 0 then
      fillSplit hashF mask rest (acc.1, (acc.2.insertB p.1 p.2).1)
    else
      fillSplit hashF mask rest ((acc.1.insertB p.1 p.2).1, acc.2)

/-- The directory-rewrite loop of the split: every entry that referenced the
full bucket is redirected to `b1` when the entry's own index has the `mask`
bit set, to `b0` otherwise (`i` is the absolute index of the first list
element). -/
def rewriteDir (old b0 b1 mask : Nat) : Nat → List Nat → List Nat
  | _, [] => []
  | i, e :: rest =>
    (if e = old then (if i &&& mask ≠ 0 then b1 else b0) else e)
      :: rewriteDir old b0 b1 mask (i + 1) rest

/-- The directory-doubling branch of the split: append a copy of the
directory to itself and increment the global depth. -/
def EHT.doubleDir {K V : Type} (t : EHT K V) : EHT K V :=
  { t with globalDepth := t.globalDepth + 1, dir := t.dir ++ t.dir }

/-- The splitting of the bucket with arena index `bid`: bump `num_buckets_`,
build the two replacement buckets with local depth one deeper, redistribute
the items by the bit `1 << old_depth`, and rewrite every directory entry
that referenced the full bucket. -/
def EHT.splitAt {K V : Type} [DecidableEq K] (u : EHT K V) (bid : Nat) : EHT K V :=
  let tb := u.bucketOf bid
  let mask := 2 ^ tb.depth
  let bs := fillSplit u.hashF mask tb.list
    (⟨u.bucketSize, tb.depth + 1, []⟩, ⟨u.bucketSize, tb.depth + 1, []⟩)
  let L := u.store.length
  { u with
    numBuckets := u.numBuckets + 1
    store := u.store ++ [bs.1, bs.2]
    dir := rewriteDir bid L (L + 1) mask 0 u.dir }

/-- One iteration of the split loop of `InsertInternal`: double the directory
when the target bucket's local depth equals the global depth, then split the
target bucket.  (The doubling changes neither the arena nor the target's
depth, so building the split buckets after it is the same as the source's
building them from values captured before it.) -/
def EHT.splitStep {K V : Type} [DecidableEq K] (t : EHT K V) (k : K) : EHT K V :=
  let bid := t.dirAt (t.indexOf k)
  let t1 := if (t.bucketOf bid).depth == t.globalDepth then t.doubleDir else t
  t1.splitAt bid

/-- The insertion performed after the split loop has exited: insert into the
bucket the key now routes to (a `false` result is only logged). -/
def EHT.finalInsert {K V : Type} [DecidableEq K] (t : EHT K V) (k : K) (v : V) :
    EHT K V :=
  let bid := t.dirAt (t.indexOf k)
  { t with store := t.store.set bid ((t.bucketOf bid).insertB k v).1 }

/-- `InsertInternal`: the split loop runs while the bucket the key routes to
is full.  `fuel` bounds the number of iterations — the C++ loop can run
forever on pathological hash collisions, and `none` stands for those
non-terminating executions.  The returned `Nat` counts the splits
performed. -/
def EHT.insertGo {K V : Type} [DecidableEq K] (k : K) (v : V) :
    Nat → EHT K V → Option (EHT K V × Nat)
  | 0, t =>
    if (t.bucketAt (t.indexOf k)).isFull then none
    else some (t.finalInsert k v, 0)
  | fuel + 1, t =>
    if (t.bucketAt (t.indexOf k)).isFull then
      (EHT.insertGo k v fuel (t.splitStep k)).map (fun r => (r.1, r.2 + 1))
    else some (t.finalInsert k v, 0)

/-- `Insert` (public operation; the table-wide latch is the concurrency
aspect and does not appear in the sequential model). -/
def EHT.insertT {K V : Type} [DecidableEq K] (t : EHT K V) (k : K) (v : V)
    (fuel : Nat) : Option (EHT K V × Nat) :=
  EHT.insertGo k v fuel t

/-- Number of directory entries referencing the bucket with arena index
`bid`. -/
def EHT.refCount {K V : Type} (t : EHT K V) (bid : Nat) : Nat :=
  t.dir.count bid

/-- Total number of pairs with key `k` in the table: each distinct referenced
bucket is counted once. -/
def EHT.countKey {K V : Type} [DecidableEq K] (t : EHT K V) (k : K) : Nat :=
  (t.dir.dedup.map (fun bid => (t.bucketOf bid).list.countP
    (fun p => decide (p.1 = k)))).sum

/-!
## LRU-K replacer (`src/buffer/lru_k_replacer.cpp`)

`frame_id_t` is `int`, modelled as `Int`.  The two intrusive lists
`inf_list_` and `countable_list_` are lists of nodes; the `hash_` side map
is modelled by searching the lists for the (unique, in reachable states)
node of a frame.  `last` and `first` are ghost timestamps — `last` is the
time of the access event that put the node at its current list position,
`first` the time the frame was first recorded; `clock` is the ghost clock.
`none` results model fatal `BUSTUB_ASSERT` failures. -/

/-- A replacer node (`LRUKNode`): `frame_id_`, `access_count_`,
`evictable_`, plus the two ghost timestamps. -/
structure RNode where
  fid : Int
  cnt : Nat
  evict : Bool
  last : Nat
  first : Nat
deriving DecidableEq

/-- `LRUKReplacer`: `replacer_size_`, `k_`, the two node lists, and
`curr_size_` (the count of evictable nodes), plus the ghost clock. -/
structure LRUK where
  rsize : Nat
  k : Nat
  infL : List RNode
  cntL : List RNode
  curSize : Nat
  clock : Nat
deriving DecidableEq

/-- The constructor `LRUKReplacer(num_frames, k)`. -/
def LRUK.mk0 (numFrames k : Nat) : LRUK :=
  ⟨numFrames, k, [], [], 0, 0⟩

/-- The precondition checked by `BUSTUB_ASSERT(frame_id <=
(int)replacer_size_, "invalid frame id")` at the top of `RecordAccess` and
`SetEvictable`. -/
def LRUK.assertOk (r : LRUK) (fid : Int) : Bool :=
  fid ≤ (r.rsize : Int)

/-- The `hash_` lookup: the node of `fid`, wherever it lives. -/
def LRUK.findN (r : LRUK) (fid : Int) : Option RNode :=
  (r.infL.find? (fun n => decide (n.fid = fid))).orElse
    (fun _ => r.cntL.find? (fun n => decide (n.fid = fid)))

/-- Erase the node of `fid` from a list (`list.erase(it)`). -/
def eraseN (l : List RNode) (fid : Int) : List RNode :=
  l.eraseP (fun n => decide (n.fid = fid))

/-- `RecordAccess`.  An untracked frame gets a fresh node with count 1 — at
the back of `countable_list_` when `k_ == 1`, of `inf_list_` otherwise
(modelled from the spec for the header-defined node constructor: count 1,
not evictable).  A tracked frame's count is bumped and its node re-emplaced
at the back of the list matching the new count, the evictable flag
preserved. -/
def LRUK.recordAccess (r : LRUK) (fid : Int) : Option LRUK :=
  if r.assertOk fid then
    match r.findN fid with
    | none =>
      if r.k == 1 then
        some { r with cntL := r.cntL ++ [⟨fid, 1, false, r.clock, r.clock⟩],
                      clock := r.clock + 1 }
      else
        some { r with infL := r.infL ++ [⟨fid, 1, false, r.clock, r.clock⟩],
                      clock := r.clock + 1 }
    | some n =>
      let c := n.cnt + 1
      if c < r.k then
        some { r with infL := eraseN r.infL fid ++ [⟨fid, c, n.evict, r.clock, n.first⟩],
                      clock := r.clock + 1 }
      else if c == r.k then
        some { r with infL := eraseN r.infL fid,
                      cntL := r.cntL ++ [⟨fid, c, n.evict, r.clock, n.first⟩],
                      clock := r.clock + 1 }
      else
        some { r with cntL := eraseN r.cntL fid ++ [⟨fid, c, n.evict, r.clock, n.first⟩],
                      clock := r.clock + 1 }
  else none

/-- `SetEvictable`: toggle the node's flag, adjusting `curr_size_`; no
effect when untracked or unchanged. -/
def LRUK.setEvictable (r : LRUK) (fid : Int) (b : Bool) : Option LRUK :=
  if r.assertOk fid then
    match r.findN fid with
    | none => some r
    | some n =>
      if n.evict = false then
        if b then
          some { r with
            infL := r.infL.map (fun m => if m.fid = fid then { m with evict := b } else m),
            cntL := r.cntL.map (fun m => if m.fid = fid then { m with evict := b } else m),
            curSize := r.curSize + 1 }
        else some r
      else
        if b = false then
          some { r with
            infL := r.infL.map (fun m => if m.fid = fid then { m with evict := b } else m),
            cntL := r.cntL.map (fun m => if m.fid = fid then { m with evict := b } else m),
            curSize := r.curSize - 1 }
        else some r
  else none

/-- `RemoveInternal`: no effect when untracked; `BUSTUB_ASSERT` (fatal,
`none`) when the node is not evictable; otherwise erase it from the list
matching its count and decrement `curr_size_`. -/
def LRUK.removeInternal (r : LRUK) (fid : Int) : Option LRUK :=
  match r.findN fid with
  | none => some r
  | some n =>
    if n.evict then
      if n.cnt ≥ r.k then
        some { r with cntL := eraseN r.cntL fid, curSize := r.curSize - 1 }
      else
        some { r with infL := eraseN r.infL fid, curSize := r.curSize - 1 }
    else none

/-- `Remove` (public). -/
def LRUK.removeF (r : LRUK) (fid : Int) : Option LRUK :=
  r.removeInternal fid

/-- `Evict`: scan `inf_list_` for the first evictable node, then
`countable_list_`; remove and return the victim; `none` models the `false`
return (no state change). -/
def LRUK.evictF (r : LRUK) : Option (Int × LRUK) :=
  match r.infL.find? (fun n => n.evict) with
  | some n => (r.removeInternal n.fid).map (fun r' => (n.fid, r'))
  | none =>
    match r.cntL.find? (fun n => n.evict) with
    | some n => (r.removeInternal n.fid).map (fun r' => (n.fid, r'))
    | none => none

/-- `Size`. -/
def LRUK.size (r : LRUK) : Nat :=
  r.curSize

/-- The replacer states reachable from a constructor call by the public
operations that complete without a fatal assertion. -/
inductive LRUK.Reach : LRUK → Prop
  | init (n k : Nat) : LRUK.Reach (LRUK.mk0 n k)
  | record {r r' : LRUK} {fid : Int} :
      LRUK.Reach r → r.recordAccess fid = some r' → LRUK.Reach r'
  | setEv {r r' : LRUK} {fid : Int} {b : Bool} :
      LRUK.Reach r → r.setEvictable fid b = some r' → LRUK.Reach r'
  | remove {r r' : LRUK} {fid : Int} :
      LRUK.Reach r → r.removeF fid = some r' → LRUK.Reach r'
  | evict {r r' : LRUK} {fid : Int} :
      LRUK.Reach r → r.evictF = some (fid, r') → LRUK.Reach r'

/-- The replacer invariant.  `k ≥ 1` is the spec's configuration constraint;
the ghost timestamps of each list are strictly increasing (each list is in
order of the event that put the node at its position) and below the clock;
`inf_list_` holds the counts below `k_` and `countable_list_` the rest; and
no frame id occurs twice. -/
def LRUK.Ok (r : LRUK) : Prop :=
  1 ≤ r.k ∧
  (∀ n ∈ r.infL, n.last < r.clock) ∧
  (∀ n ∈ r.cntL, n.last < r.clock) ∧
  r.infL.Pairwise (fun a b => a.last < b.last) ∧
  r.cntL.Pairwise (fun a b => a.last < b.last) ∧
  (∀ n ∈ r.infL, n.cnt < r.k) ∧
  (∀ n ∈ r.cntL, r.k ≤ n.cnt) ∧
  (r.infL ++ r.cntL).Pairwise (fun a b => a.fid ≠ b.fid)

/-!
## Buffer pool manager (`buffer_pool_manager_instance.cpp`)

`page_id_t` and `frame_id_t` are `int`, modelled as `Int`
(`INVALID_PAGE_ID = -1`).  A frame's byte buffer is abstracted to one `Nat`
(`ResetMemory` zeroes it).  The disk is an association list from page id to
content, with ghost `reads`/`writes` logs recording each
`DiskManager::ReadPage`/`WritePage` call.  `none` results model fatal
assertion failures, C++ undefined behaviour (indexing `pages_` with an
invalid frame id), and non-termination of the page-table insert. -/

/-- A frame (`Page`): bound `page_id_`, `pin_count_`, `is_dirty_`, and the
data buffer. -/
structure PageFrame where
  pid : Int
  pin : Int
  dirty : Bool
  data : Nat
deriving DecidableEq

/-- `DiskManager::ReadPage` result: content of page `p` (unwritten pages read
as zeroes). -/
def diskRead (d : List (Int × Nat)) (p : Int) : Nat :=
  ((d.find? (fun e => decide (e.1 = p))).map (fun e => e.2)).getD 0

/-- `DiskManager::WritePage`: store content `v` at page `p`. -/
def diskWrite : List (Int × Nat) → Int → Nat → List (Int × Nat)
  | [], p, v => [(p, v)]
  | e :: rest, p, v => if e.1 = p then (p, v) :: rest else e :: diskWrite rest p v

/-- `std::hash<int>` of libstdc++: the value cast to `size_t`. -/
def intHash (p : Int) : Nat :=
  (p % (2 ^ 64 : Int)).toNat

/-- `BufferPoolManagerInstance`: frame array, page table, free list,
replacer, page-id allocator, plus the disk collaborator and the ghost I/O
logs. -/
structure BPM where
  poolSize : Nat
  pages : List PageFrame
  pt : EHT Int Int
  freeL : List Int
  repl : LRUK
  nextPid : Int
  disk : List (Int × Nat)
  reads : List Int
  writes : List Int

/-- The constructor: every frame unbound and in the free list.  The header
constant `bucket_size_` is not among the sources, so it is a parameter. -/
def BPM.mk0 (poolSize replacerK bucketSize : Nat) : BPM :=
  { poolSize := poolSize
    pages := List.replicate poolSize ⟨-1, 0, false, 0⟩
    pt := EHT.init intHash bucketSize
    freeL := (List.range poolSize).map (fun i => (i : Int))
    repl := LRUK.mk0 poolSize replacerK
    nextPid := 0
    disk := []
    reads := []
    writes := [] }

/-- `pages_[fid]`; `none` when the frame id does not index the array (C++
undefined behaviour). -/
def BPM.getPage (s : BPM) (fid : Int) : Option PageFrame :=
  if 0 ≤ fid then s.pages.get? fid.toNat else none

/-- The tail of `GetNewPage` once a frame has been chosen: allocate a fresh
page id if asked, write the old page back if dirty, drop the old binding,
reset the frame (pin count 1, clean, zeroed), insert the new binding, pin
it in the replacer and record the access. -/
def BPM.getNewPageGo (fuel : Nat) (s : BPM) (fid : Int) (pid0 : Int) :
    Option (Int × BPM) :=
  match s.getPage fid with
  | none => none
  | some pg =>
    let a := if pid0 = -1 then (s.nextPid, { s with nextPid := s.nextPid + 1 })
             else (pid0, s)
    let s2 := if pg.dirty then
        { a.2 with disk := diskWrite a.2.disk pg.pid pg.data,
                   writes := a.2.writes ++ [pg.pid] }
      else a.2
    let s3 := { s2 with pt := (s2.pt.removeT pg.pid).1 }
    let s4 := { s3 with pages := s3.pages.set fid.toNat ⟨a.1, 1, false, 0⟩ }
    match s4.pt.insertT a.1 fid fuel with
    | none => none
    | some r =>
      let s5 := { s4 with pt := r.1 }
      match s5.repl.setEvictable fid false with
      | none => none
      | some r1 =>
        match r1.recordAccess fid with
        | none => none
        | some r2 => some (a.1, { s5 with repl := r2 })

/-- `GetNewPage`: take the front of the free list, else evict; return
`INVALID_PAGE_ID` when neither is possible. -/
def BPM.getNewPage (fuel : Nat) (s : BPM) (pid0 : Int) : Option (Int × BPM) :=
  match s.freeL with
  | f :: rest => BPM.getNewPageGo fuel { s with freeL := rest } f pid0
  | [] =>
    if 0 < s.repl.size then
      match s.repl.evictF with
      | some e => BPM.getNewPageGo fuel { s with repl := e.2 } e.1 pid0
      | none => none
    else some (-1, s)

/-- The unconditional tail of `FetchPgImp`: re-find the frame, and read the
page from disk into its buffer. -/
def BPM.fetchFinish (s : BPM) (p : Int) : Option (Option Int × BPM) :=
  match s.pt.findT p with
  | none => none
  | some fid =>
    match s.getPage fid with
    | none => none
    | some pg =>
      some (some fid,
        { s with pages := s.pages.set fid.toNat { pg with data := diskRead s.disk p },
                 reads := s.reads ++ [p] })

/-- `FetchPgImp`: on a page-table miss run `GetNewPage` (returning `nullptr`
when it fails); then — hit or miss — look the frame up and read the page
from disk into it. -/
def BPM.fetchPage (fuel : Nat) (s : BPM) (p : Int) : Option (Option Int × BPM) :=
  match s.pt.findT p with
  | some _ => s.fetchFinish p
  | none =>
    match s.getNewPage fuel p with
    | none => none
    | some r => if r.1 = -1 then some (none, r.2) else r.2.fetchFinish p

/-- `UnpinPgImp`: `false` when not resident or pin count already ≤ 0;
otherwise OR the dirty flag, decrement the pin count and — exactly when it
reaches zero — mark the frame evictable. -/
def BPM.unpinPage (s : BPM) (p : Int) (d : Bool) : Option (Bool × BPM) :=
  match s.pt.findT p with
  | none => some (false, s)
  | some fid =>
    match s.getPage fid with
    | none => none
    | some pg =>
      if pg.pin ≤ 0 then some (false, s)
      else
        let pg2 := { pg with dirty := pg.dirty || d, pin := pg.pin - 1 }
        let s1 := { s with pages := s.pages.set fid.toNat pg2 }
        if pg.pin - 1 = 0 then
          match s1.repl.setEvictable fid true with
          | none => none
          | some r' => some (true, { s1 with repl := r' })
        else some (true, s1)

/-- `FlushPgImp`: write the frame to disk and clear its dirty flag; `false`
when not resident. -/
def BPM.flushPage (s : BPM) (p : Int) : Option (Bool × BPM) :=
  match s.pt.findT p with
  | none => some (false, s)
  | some fid =>
    match s.getPage fid with
    | none => none
    | some pg =>
      some (true, { s with disk := diskWrite s.disk p pg.data,
                           writes := s.writes ++ [p],
                           pages := s.pages.set fid.toNat { pg with dirty := false } })

/-- `DeletePgImp`: `true` when not resident; `false` on a pinned frame;
otherwise drop the binding, remove the frame from the replacer, return it to
the free list, reset it, and deallocate the page id (`DeallocatePage` is
modelled from the spec as the documented no-op placeholder). -/
def BPM.deletePage (s : BPM) (p : Int) : Option (Bool × BPM) :=
  match s.pt.findT p with
  | none => some (true, s)
  | some fid =>
    match s.getPage fid with
    | none => none
    | some pg =>
      if 0 < pg.pin then some (false, s)
      else
        let s1 := { s with pt := (s.pt.removeT p).1 }
        match s1.repl.removeF fid with
        | none => none
        | some r' =>
          some (true, { s1 with repl := r',
                                freeL := s1.freeL ++ [fid],
                                pages := s1.pages.set fid.toNat ⟨-1, 0, false, 0⟩ })

/-!
## The directory invariant

`EntryOk t i` says about the bucket referenced by directory entry `i`: the
reference is a valid arena index; its local depth is at most the global
depth; its capacity is the table's bucket size and it holds at most that
many pairs, with pairwise distinct keys; every key it holds agrees with the
entry's index on the low `local_depth` hash bits; and the set of directory
entries referencing it is exactly the set of positions congruent to `i`
modulo `2 ^ local_depth`. -/
def EHT.EntryOk {K V : Type} (t : EHT K V) (i : Nat) : Prop :=
  t.dirAt i < t.store.length ∧
  (t.bucketAt i).depth ≤ t.globalDepth ∧
  (t.bucketAt i).size = t.bucketSize ∧
  (t.bucketAt i).list.length ≤ t.bucketSize ∧
  ((t.bucketAt i).list.map Prod.fst).Nodup ∧
  (∀ p ∈ (t.bucketAt i).list,
    t.hashF p.1 % 2 ^ (t.bucketAt i).depth = i % 2 ^ (t.bucketAt i).depth) ∧
  (∀ j < t.dir.length,
    (t.dirAt j = t.dirAt i ↔ j % 2 ^ (t.bucketAt i).depth = i % 2 ^ (t.bucketAt i).depth))

/-- The extendible-hash-table invariant: the directory has length
`2 ^ global_depth` and every entry satisfies `EntryOk`. -/
def EHT.Inv {K V : Type} (t : EHT K V) : Prop :=
  t.dir.length = 2 ^ t.globalDepth ∧ ∀ i < t.dir.length, t.EntryOk i

instance {K V : Type} [DecidableEq K] (t : EHT K V) (i : Nat) :
    Decidable (t.EntryOk i) := by
  unfold EHT.EntryOk
  infer_instance

instance {K V : Type} [DecidableEq K] (t : EHT K V) : Decidable t.Inv := by
  unfold EHT.Inv
  infer_instance

/-!
## Concrete states

Closed states the theorems are instantiated at: hash tables with the
identity hash and bucket size 1 (where a single insertion fills a bucket),
small replacers, and one-frame pools. -/

/-- `ExtendibleHashTable<int,int>(1)` after `Insert(0, 10)`. -/
def ehtW1 : EHT Nat Nat :=
  ⟨fun k => k, 0, 1, 1, [⟨1, 0, [(0, 10)]⟩], [0]⟩

/-- `ehtW1` after `Insert(1, 11)`: one doubling-and-split, directory
`[1, 2]` over an arena of three buckets. -/
def ehtW2 : EHT Nat Nat :=
  ⟨fun k => k, 1, 1, 2, [⟨1, 0, [(0, 10)]⟩, ⟨1, 1, [(0, 10)]⟩, ⟨1, 1, [(1, 11)]⟩],
   [1, 2]⟩

/-- `ExtendibleHashTable<int,int>(1)` after `Insert(5, 100)`: the bucket key
5 routes to is at capacity. -/
def ehtC10b : EHT Nat Nat :=
  ⟨fun k => k, 0, 1, 1, [⟨1, 0, [(5, 100)]⟩], [0]⟩

/-- `LRUKReplacer(3, 2)` after `RecordAccess(0); SetEvictable(0, true)`. -/
def lruW2 : LRUK :=
  ⟨3, 2, [⟨0, 1, true, 0, 0⟩], [], 1, 1⟩

/-- `LRUKReplacer(4, 3)` after `RecordAccess(1); RecordAccess(2);
RecordAccess(1); SetEvictable(1, true); SetEvictable(2, true)`: both frames
sit in `inf_list_` (counts below k), frame 1 first recorded before frame 2,
but frame 1's node was re-emplaced behind frame 2's. -/
def lruCex : LRUK :=
  ⟨4, 3, [⟨2, 1, true, 1, 1⟩, ⟨1, 2, true, 2, 0⟩], [], 2, 3⟩

/-- A one-entry page table binding page 0 to frame 0. -/
def ptW : EHT Int Int :=
  ⟨intHash, 0, 4, 1, [⟨4, 0, [((0 : Int), (0 : Int))]⟩], [0]⟩

/-- A one-frame pool: page 0 resident in frame 0, pin count 0, clean, stale
buffer 5 against on-disk content 7, frame tracked unevictable. -/
def bpmW1 : BPM :=
  { poolSize := 1, pages := [⟨0, 0, false, 5⟩], pt := ptW, freeL := [],
    repl := ⟨1, 2, [⟨0, 1, false, 0, 0⟩], [], 0, 1⟩, nextPid := 1,
    disk := [(0, 7)], reads := [], writes := [] }

/-- `bpmW1` after `FetchPage(0)`: the buffer reloaded from disk, the read
logged. -/
def bpmW1f : BPM :=
  { poolSize := 1, pages := [⟨0, 0, false, 7⟩], pt := ptW, freeL := [],
    repl := ⟨1, 2, [⟨0, 1, false, 0, 0⟩], [], 0, 1⟩, nextPid := 1,
    disk := [(0, 7)], reads := [0], writes := [] }

/-- As `bpmW1` but with pin count 2. -/
def bpmW3 : BPM :=
  { poolSize := 1, pages := [⟨0, 2, false, 5⟩], pt := ptW, freeL := [],
    repl := ⟨1, 2, [⟨0, 1, false, 0, 0⟩], [], 0, 1⟩, nextPid := 1,
    disk := [(0, 7)], reads := [], writes := [] }

/-- A one-frame pool: page 0 resident in frame 0, pin count 0, dirty with
unflushed buffer 5 against on-disk content 7, frame evictable. -/
def bpmW4 : BPM :=
  { poolSize := 1, pages := [⟨0, 0, true, 5⟩], pt := ptW, freeL := [],
    repl := ⟨1, 2, [⟨0, 1, true, 0, 0⟩], [], 1, 1⟩, nextPid := 1,
    disk := [(0, 7)], reads := [], writes := [] }

/-- `bpmW4` after `DeletePage(0)`: binding dropped, frame reset and freed,
replacer emptied — disk image and write log untouched. -/
def bpmW4del : BPM :=
  { poolSize := 1, pages := [⟨-1, 0, false, 0⟩],
    pt := ⟨intHash, 0, 4, 1, [⟨4, 0, []⟩], [0]⟩, freeL := [0],
    repl := ⟨1, 2, [], [], 0, 1⟩, nextPid := 1,
    disk := [(0, 7)], reads := [], writes := [] }

/-! ## Arithmetic auxiliaries -/

theorem and_two_pow_eq_zero_iff (x d : Nat) :
    x &&& 2 ^ d = 0 ↔ x / 2 ^ d % 2 = 0 := by
  have hpos : 0 < 2 ^ d := Nat.pos_pow_of_pos d (by omega)
  rw [Nat.and_two_pow]
  rcases hb : x.testBit d with _ | _
  · rw [Nat.testBit_to_div_mod, decide_eq_false_iff_not] at hb
    have h4 := Nat.mod_two_eq_zero_or_one (x / 2 ^ d)
    simp only [Bool.toNat_false, Nat.zero_mul]
    constructor
    · intro _
      omega
    · intro _
      trivial
  · rw [Nat.testBit_to_div_mod, decide_eq_true_eq] at hb
    simp only [Bool.toNat_true, Nat.one_mul]
    constructor
    · intro h
      omega
    · intro h
      omega

theorem mod_two_pow_succ_eq (x d : Nat) :
    x % 2 ^ (d + 1) = x % 2 ^ d + 2 ^ d * (x / 2 ^ d % 2) := by
  rw [pow_succ]
  exact Nat.mod_mul

/-- Splitting a residue modulo `2 ^ (d+1)` into the residue modulo `2 ^ d`
and the bit at position `d`. -/
theorem mod_pow_succ_split {r : Nat} (x d : Nat) (hr : r < 2 ^ d) :
    (x % 2 ^ (d + 1) = r ↔ x % 2 ^ d = r ∧ x &&& 2 ^ d = 0) ∧
    (x % 2 ^ (d + 1) = r + 2 ^ d ↔ x % 2 ^ d = r ∧ x &&& 2 ^ d ≠ 0) := by
  have h2 := and_two_pow_eq_zero_iff x d
  have h3 : x % 2 ^ d < 2 ^ d := Nat.mod_lt _ (Nat.pos_pow_of_pos d (by omega))
  rcases Nat.mod_two_eq_zero_or_one (x / 2 ^ d) with h4 | h4
  · have h1 : x % 2 ^ (d + 1) = x % 2 ^ d := by
      rw [mod_two_pow_succ_eq, h4]
      simp
    have hz : x &&& 2 ^ d = 0 := h2.mpr h4
    constructor
    · constructor
      · intro h
        exact ⟨by omega, hz⟩
      · intro h
        omega
    · constructor
      · intro h
        exact absurd rfl (by omega : ¬ (0 : Nat) = 0)
      · intro h
        exact absurd hz h.2
  · have h1 : x % 2 ^ (d + 1) = x % 2 ^ d + 2 ^ d := by
      rw [mod_two_pow_succ_eq, h4]
      omega
    have hnz : x &&& 2 ^ d ≠ 0 := fun hz => by
      rw [h2] at hz
      omega
    constructor
    · constructor
      · intro h
        exact absurd rfl (by omega : ¬ (0 : Nat) = 0)
      · intro h
        have := h2.mp h.2
        omega
    · constructor
      · intro h
        exact ⟨by omega, hnz⟩
      · intro h
        omega

theorem mod_mod_two_pow_of_le {d g : Nat} (hd : d ≤ g) (x : Nat) :
    x % 2 ^ g % 2 ^ d = x % 2 ^ d :=
  Nat.mod_mod_of_dvd x (Nat.pow_dvd_pow 2 hd)

theorem countP_range_eq_single (n r : Nat) :
    (List.range n).countP (fun j => decide (j = r)) = if r < n then 1 else 0 := by
  induction n with
  | zero => simp
  | succ n ih =>
    rw [List.range_succ, List.countP_append, ih, List.countP_cons]
    simp only [List.countP_nil]
    by_cases h : n = r
    · subst h
      simp [Nat.lt_irrefl, Nat.lt_succ_self]
    · have h0 : (decide (n = r)) = false := by simp [h]
      rw [h0]
      by_cases h2 : r < n
      · have h3 : r < n + 1 := by omega
        simp [h2, h3]
      · have h3 : ¬ r < n + 1 := by omega
        simp [h2, h3]

theorem countP_range_mod (d r m : Nat) (hr : r < 2 ^ d) :
    (List.range (2 ^ d * m)).countP (fun j => decide (j % 2 ^ d = r)) = m := by
  induction m with
  | zero => simp
  | succ m ih =>
    have hsplit : 2 ^ d * (m + 1) = 2 ^ d * m + 2 ^ d := by ring
    rw [hsplit, List.range_add, List.countP_append, ih, List.countP_map]
    have hcong : ∀ j ∈ List.range (2 ^ d),
        (((fun j => decide (j % 2 ^ d = r)) ∘ (fun j => 2 ^ d * m + j)) j = true)
          ↔ ((fun j => decide (j = r)) j = true) := by
      intro j hj
      have hj' : j < 2 ^ d := List.mem_range.mp hj
      simp only [Function.comp_apply, decide_eq_true_eq]
      rw [Nat.mul_add_mod, Nat.mod_eq_of_lt hj']
    rw [List.countP_congr hcong, countP_range_eq_single]
    simp [hr]

theorem count_eq_countP_range (l : List Nat) (bid : Nat) :
    l.count bid
      = (List.range l.length).countP (fun j => decide (l.getD j 0 = bid)) := by
  induction l with
  | nil => simp
  | cons a l ih =>
    rw [List.length_cons, List.range_succ_eq_map, List.countP_cons,
      List.countP_map]
    have h1 : ((fun j => decide ((a :: l).getD j 0 = bid)) ∘ Nat.succ)
        = fun j => decide (l.getD j 0 = bid) := rfl
    rw [h1, ← ih, List.count_cons]
    by_cases h : a = bid <;> simp [h]

/-- A directory whose entries for `bid` are exactly the positions congruent
to `r` modulo `2 ^ d` references `bid` exactly `2 ^ (g - d)` times. -/
theorem count_of_char {g d r : Nat} (hd : d ≤ g) (hr : r < 2 ^ d)
    (l : List Nat) (hlen : l.length = 2 ^ g) (bid : Nat)
    (hchar : ∀ j < l.length, (l.getD j 0 = bid ↔ j % 2 ^ d = r)) :
    l.count bid = 2 ^ (g - d) := by
  rw [count_eq_countP_range]
  have hcong : ∀ j ∈ List.range l.length,
      ((fun j => decide (l.getD j 0 = bid)) j = true)
        ↔ ((fun j => decide (j % 2 ^ d = r)) j = true) := by
    intro j hj
    simp only [decide_eq_true_eq]
    exact hchar j (List.mem_range.mp hj)
  rw [List.countP_congr hcong, hlen]
  have hpow : 2 ^ g = 2 ^ d * 2 ^ (g - d) := by
    rw [← pow_add]
    congr 1
    omega
  rw [hpow, countP_range_mod _ _ _ hr]

/-! ## List auxiliaries -/

theorem getD_set_self {α : Type} (l : List α) (i : Nat) (a d : α)
    (h : i < l.length) : (l.set i a).getD i d = a := by
  rw [List.getD_eq_getElem?_getD, List.getElem?_set_self h]
  rfl

theorem getD_set_ne {α : Type} (l : List α) {i j : Nat} (hij : i ≠ j)
    (a d : α) : (l.set i a).getD j d = l.getD j d := by
  rw [List.getD_eq_getElem?_getD, List.getD_eq_getElem?_getD,
    List.getElem?_set_ne hij]

theorem getD_append_left {α : Type} (l₁ l₂ : List α) (j : Nat) (d : α)
    (h : j < l₁.length) : (l₁ ++ l₂).getD j d = l₁.getD j d := by
  rw [List.getD_eq_getElem?_getD, List.getD_eq_getElem?_getD,
    List.getElem?_append, if_pos h]

theorem getD_append_mid {α : Type} (l₁ l₂ : List α) (j : Nat) (d : α)
    (h : l₁.length ≤ j) :
    (l₁ ++ l₂).getD j d = l₂.getD (j - l₁.length) d := by
  rw [List.getD_eq_getElem?_getD, List.getD_eq_getElem?_getD,
    List.getElem?_append, if_neg (by omega)]

theorem countP_fst_eq_of_map_fst_eq {K V : Type} [DecidableEq K]
    {l₁ l₂ : List (K × V)} (h : l₁.map Prod.fst = l₂.map Prod.fst) (k : K) :
    l₁.countP (fun p => decide (p.1 = k)) = l₂.countP (fun p => decide (p.1 = k)) := by
  have hc := congrArg (List.countP (fun x => decide (x = k))) h
  rwa [List.countP_map, List.countP_map] at hc

theorem mem_fst_of_map_fst_eq {K V : Type} {l₁ l₂ : List (K × V)}
    (h : l₁.map Prod.fst = l₂.map Prod.fst) :
    ∀ p ∈ l₁, ∃ q ∈ l₂, q.1 = p.1 := by
  intro p hp
  have h1 : p.1 ∈ l₂.map Prod.fst := h ▸ List.mem_map_of_mem Prod.fst hp
  rcases List.mem_map.mp h1 with ⟨q, hq, hq1⟩
  exact ⟨q, hq, hq1⟩

/-! ## Lemmas about the split helpers -/

theorem length_rewriteDir (old b0 b1 mask : Nat) (i : Nat) (l : List Nat) :
    (rewriteDir old b0 b1 mask i l).length = l.length := by
  induction l generalizing i with
  | nil => rfl
  | cons e rest ih => simp [rewriteDir, ih]

theorem getD_rewriteDir (old b0 b1 mask : Nat) (i : Nat) (l : List Nat)
    (j : Nat) (hj : j < l.length) :
    (rewriteDir old b0 b1 mask i l).getD j 0
      = if l.getD j 0 = old then (if (i + j) &&& mask ≠ 0 then b1 else b0)
        else l.getD j 0 := by
  induction l generalizing i j with
  | nil => simp at hj
  | cons e rest ih =>
    cases j with
    | zero => simp [rewriteDir]
    | succ j =>
      have hj' : j < rest.length := by simpa using hj
      have harith : i + 1 + j = i + (j + 1) := by omega
      simp only [rewriteDir, List.getD_cons_succ]
      rw [ih (i + 1) j hj', harith]

theorem updFirst_map_fst {K V : Type} [DecidableEq K] (k : K) (v : V)
    (l : List (K × V)) :
    (updFirst k v l).map Prod.fst = l.map Prod.fst := by
  induction l with
  | nil => rfl
  | cons p rest ih =>
    by_cases h : p.1 = k
    · simp [updFirst, h]
    · simp [updFirst, h, ih]

theorem length_updFirst {K V : Type} [DecidableEq K] (k : K) (v : V)
    (l : List (K × V)) : (updFirst k v l).length = l.length := by
  have h := congrArg List.length (updFirst_map_fst k v l)
  simpa using h

theorem find?_updFirst {K V : Type} [DecidableEq K] (k : K) (v : V)
    (l : List (K × V)) (h : l.any (fun p => decide (p.1 = k)) = true) :
    (updFirst k v l).find? (fun p => decide (p.1 = k)) = some (k, v) := by
  induction l with
  | nil => simp at h
  | cons p rest ih =>
    by_cases hp : p.1 = k
    · simp [updFirst, hp, List.find?_cons]
    · have h' : rest.any (fun p => decide (p.1 = k)) = true := by
        rcases List.any_eq_true.mp h with ⟨q, hq, hqk⟩
        rcases List.mem_cons.mp hq with rfl | hq'
        · exact absurd (by simpa using hqk) hp
        · exact List.any_eq_true.mpr ⟨q, hq', hqk⟩
      simp [updFirst, hp, List.find?_cons, ih h']

theorem insertB_depth {K V : Type} [DecidableEq K] (b : Bucket K V) (k : K)
    (v : V) : ((b.insertB k v).1).depth = b.depth := by
  unfold Bucket.insertB
  split
  · rfl
  · split <;> rfl

theorem insertB_size {K V : Type} [DecidableEq K] (b : Bucket K V) (k : K)
    (v : V) : ((b.insertB k v).1).size = b.size := by
  unfold Bucket.insertB
  split
  · rfl
  · split <;> rfl

theorem insertB_list_upd {K V : Type} [DecidableEq K] (b : Bucket K V) (k : K)
    (v : V) (h : b.list.any (fun p => decide (p.1 = k)) = true) :
    ((b.insertB k v).1).list = updFirst k v b.list := by
  simp [Bucket.insertB, h]

theorem insertB_list_app {K V : Type} [DecidableEq K] (b : Bucket K V) (k : K)
    (v : V) (h : b.list.any (fun p => decide (p.1 = k)) = false)
    (hnf : b.isFull = false) :
    ((b.insertB k v).1).list = b.list ++ [(k, v)] := by
  simp [Bucket.insertB, h, hnf]

theorem isFull_false_of_lt {K V : Type} (b : Bucket K V) (sz : Nat)
    (hsz : b.size = sz) (hlt : b.list.length < sz) : b.isFull = false := by
  simp only [Bucket.isFull, hsz, beq_eq_false_iff_ne, ne_eq]
  omega

theorem any_key_eq_false {K V : Type} [DecidableEq K] (l : List (K × V))
    (k : K) (h : ¬ k ∈ l.map Prod.fst) :
    l.any (fun p => decide (p.1 = k)) = false := by
  rw [Bool.eq_false_iff]
  intro hc
  rcases List.any_eq_true.mp hc with ⟨p, hp, hpk⟩
  exact h (List.mem_map.mpr ⟨p, hp, by simpa using hpk⟩)

theorem fillSplit_spec {K V : Type} [DecidableEq K] (hashF : K → Nat)
    (mask sz : Nat) (items : List (K × V)) :
    ∀ (b0 b1 : Bucket K V),
    b0.size = sz → b1.size = sz →
    (items.map Prod.fst).Nodup →
    (∀ p ∈ items, ¬ p.1 ∈ b0.list.map Prod.fst) →
    (∀ p ∈ items, ¬ p.1 ∈ b1.list.map Prod.fst) →
    b0.list.length + b1.list.length + items.length ≤ sz →
    fillSplit hashF mask items (b0, b1)
      = ({ b0 with list := b0.list
            ++ items.filter (fun p => decide (hashF p.1 &&& mask = 0)) },
         { b1 with list := b1.list
            ++ items.filter (fun p => decide (hashF p.1 &&& mask ≠ 0)) }) := by
  induction items with
  | nil =>
    intro b0 b1 _ _ _ _ _ _
    simp [fillSplit]
  | cons p rest ih =>
    intro b0 b1 hs0 hs1 hnd h0 h1 hlen
    have hndtail : (rest.map Prod.fst).Nodup := by
      simpa using hnd.of_cons
    have hhead : ¬ p.1 ∈ rest.map Prod.fst := by
      have := hnd
      rw [List.map_cons, List.nodup_cons] at this
      exact this.1
    by_cases hb : hashF p.1 &&& mask ≠ 0
    · have hany : b1.list.any (fun q => decide (q.1 = p.1)) = false :=
        any_key_eq_false _ _ (h1 p (by simp))
      have hfull : b1.isFull = false :=
        isFull_false_of_lt _ sz hs1 (by simp at hlen ⊢; omega)
      have hins : ((b1.insertB p.1 p.2).1) = { b1 with list := b1.list ++ [p] } := by
        have h2 := insertB_list_app b1 p.1 p.2 hany hfull
        have h3 := insertB_depth b1 p.1 p.2
        have h4 := insertB_size b1 p.1 p.2
        cases hi : (b1.insertB p.1 p.2).1 with
        | mk s d li =>
          rw [hi] at h2 h3 h4
          simp_all
      have hstep : fillSplit hashF mask (p :: rest) (b0, b1)
          = fillSplit hashF mask rest (b0, { b1 with list := b1.list ++ [p] }) := by
        simp only [fillSplit]
        rw [if_pos hb, hins]
      rw [hstep, ih b0 { b1 with list := b1.list ++ [p] } hs0 hs1 hndtail
        (fun q hq => h0 q (by simp [hq]))
        (fun q hq => by
          simp only [List.map_append, List.mem_append, List.map_cons] at *
          push_neg
          refine ⟨fun hc => (h1 q (by simp [hq])) (by simp [hc]), ?_⟩
          intro hc
          simp only [List.map_nil, List.mem_cons, List.mem_singleton] at hc
          rcases hc with hc | hc
          · exact hhead (hc ▸ List.mem_map_of_mem Prod.fst hq)
          · simp at hc)
        (by simp at hlen ⊢; omega)]
      have hf0 : (List.filter (fun p => decide (hashF p.1 &&& mask = 0)) (p :: rest))
          = List.filter (fun p => decide (hashF p.1 &&& mask = 0)) rest := by
        simp [List.filter_cons, hb]
      have hf1 : (List.filter (fun p => decide (hashF p.1 &&& mask ≠ 0)) (p :: rest))
          = p :: List.filter (fun p => decide (hashF p.1 &&& mask ≠ 0)) rest := by
        simp [List.filter_cons, hb]
      rw [hf0, hf1]
      simp
    · have hany : b0.list.any (fun q => decide (q.1 = p.1)) = false :=
        any_key_eq_false _ _ (h0 p (by simp))
      have hfull : b0.isFull = false :=
        isFull_false_of_lt _ sz hs0 (by simp at hlen ⊢; omega)
      have hins : ((b0.insertB p.1 p.2).1) = { b0 with list := b0.list ++ [p] } := by
        have h2 := insertB_list_app b0 p.1 p.2 hany hfull
        have h3 := insertB_depth b0 p.1 p.2
        have h4 := insertB_size b0 p.1 p.2
        cases hi : (b0.insertB p.1 p.2).1 with
        | mk s d li =>
          rw [hi] at h2 h3 h4
          simp_all
      have hstep : fillSplit hashF mask (p :: rest) (b0, b1)
          = fillSplit hashF mask rest ({ b0 with list := b0.list ++ [p] }, b1) := by
        simp only [fillSplit]
        rw [if_neg hb, hins]
      rw [hstep, ih { b0 with list := b0.list ++ [p] } b1 hs0 hs1 hndtail
        (fun q hq => by
          simp only [List.map_append, List.mem_append, List.map_cons] at *
          push_neg
          refine ⟨fun hc => (h0 q (by simp [hq])) (by simp [hc]), ?_⟩
          intro hc
          simp only [List.map_nil, List.mem_cons, List.mem_singleton] at hc
          rcases hc with hc | hc
          · exact hhead (hc ▸ List.mem_map_of_mem Prod.fst hq)
          · simp at hc)
        (fun q hq => h1 q (by simp [hq]))
        (by simp at hlen ⊢; omega)]
      have hf0 : (List.filter (fun p => decide (hashF p.1 &&& mask = 0)) (p :: rest))
          = p :: List.filter (fun p => decide (hashF p.1 &&& mask = 0)) rest := by
        simp only [ne_eq, not_not] at hb
        simp [List.filter_cons, hb]
      have hf1 : (List.filter (fun p => decide (hashF p.1 &&& mask ≠ 0)) (p :: rest))
          = List.filter (fun p => decide (hashF p.1 &&& mask ≠ 0)) rest := by
        simp [List.filter_cons, hb]
      rw [hf0, hf1]
      simp

/-! ## Preservation of the directory invariant -/

theorem indexOf_eq_mod {K V : Type} (t : EHT K V) (k : K) :
    t.indexOf k = t.hashF k % 2 ^ t.globalDepth :=
  Nat.and_pow_two_sub_one_eq_mod _ _

theorem indexOf_lt {K V : Type} (t : EHT K V) (k : K)
    (hlen : t.dir.length = 2 ^ t.globalDepth) :
    t.indexOf k < t.dir.length := by
  rw [hlen, indexOf_eq_mod]
  exact Nat.mod_lt _ (Nat.pos_pow_of_pos _ (by omega))

theorem inv_finalInsert {K V : Type} [DecidableEq K] (t : EHT K V) (k : K)
    (v : V) (hInv : t.Inv)
    (hnf : (t.bucketAt (t.indexOf k)).isFull = false) :
    (t.finalInsert k v).Inv := by
  obtain ⟨hlen, hok⟩ := hInv
  set i0 := t.indexOf k with hi0def
  have hi0lt : i0 < t.dir.length := indexOf_lt t k hlen
  set bid := t.dirAt i0 with hbiddef
  obtain ⟨hbid, hdep, hsz, hblen, hnd, hres, hchar⟩ := hok i0 hi0lt
  set b := t.bucketOf bid with hbdef
  have hbat_i00 : t.bucketAt i0 = b := rfl
  rw [hbat_i00] at hdep hsz hblen hnd hres hchar hnf
  set b' := (b.insertB k v).1 with hbDef
  set t' := t.finalInsert k v with htDef
  have hdir' : t'.dir = t.dir := rfl
  have hglob' : t'.globalDepth = t.globalDepth := rfl
  have hbsz' : t'.bucketSize = t.bucketSize := rfl
  have hhf' : t'.hashF = t.hashF := rfl
  have hdirAt' : ∀ j, t'.dirAt j = t.dirAt j := fun _ => rfl
  have hstlen' : t'.store.length = t.store.length := by
    simp [htDef, EHT.finalInsert]
  have hbo_eq : t'.bucketOf bid = b' := by
    simp only [htDef, EHT.finalInsert, EHT.bucketOf]
    exact getD_set_self _ _ _ _ hbid
  have hbo_ne : ∀ x, x ≠ bid → t'.bucketOf x = t.bucketOf x := by
    intro x hx
    simp only [htDef, EHT.finalInsert, EHT.bucketOf]
    exact getD_set_ne _ (fun h => hx h.symm) _ _
  have hd' : b'.depth = b.depth := insertB_depth b k v
  have hs' : b'.size = b.size := insertB_size b k v
  -- the two shapes of the modified bucket list
  have hlist' : (b'.list.map Prod.fst = b.list.map Prod.fst
        ∧ b'.list.length = b.list.length
        ∧ ∀ p ∈ b'.list, ∃ q ∈ b.list, q.1 = p.1) ∨
      (b'.list = b.list ++ [(k, v)] ∧ b.list.length < t.bucketSize
        ∧ ¬ k ∈ b.list.map Prod.fst) := by
    by_cases hany : b.list.any (fun p => decide (p.1 = k)) = true
    · left
      have h1 := insertB_list_upd b k v hany
      rw [h1, updFirst_map_fst]
      refine ⟨rfl, length_updFirst k v b.list, ?_⟩
      exact mem_fst_of_map_fst_eq (updFirst_map_fst k v b.list)
    · right
      have hany' : b.list.any (fun p => decide (p.1 = k)) = false :=
        Bool.eq_false_iff.mpr hany
      have h1 := insertB_list_app b k v hany' hnf
      have hne : b.list.length ≠ b.size := by
        simpa [Bucket.isFull] using hnf
      refine ⟨h1, by omega, ?_⟩
      intro hc
      rcases List.mem_map.mp hc with ⟨q, hq, hq1⟩
      have : b.list.any (fun p => decide (p.1 = k)) = true :=
        List.any_eq_true.mpr ⟨q, hq, by simpa using hq1⟩
      exact hany this
  refine ⟨by rw [hdir', hglob']; exact hlen, ?_⟩
  intro j hj
  rw [hdir'] at hj
  obtain ⟨hbidj, hdepj, hszj, hblenj, hndj, hresj, hcharj⟩ := hok j hj
  by_cases hjb : t.dirAt j = bid
  · -- entry j references the modified bucket
    have hbat'j : t'.bucketAt j = b' := by
      show t'.bucketOf (t'.dirAt j) = b'
      rw [hdirAt', hjb, hbo_eq]
    have hbatj : t.bucketAt j = b := by
      show t.bucketOf (t.dirAt j) = b
      rw [hjb]
    rw [hbatj] at hdepj hszj hblenj hndj hresj hcharj
    have hji0 : j % 2 ^ b.depth = i0 % 2 ^ b.depth := by
      exact (hchar j hj).mp hjb
    refine ⟨?_, ?_, ?_, ?_, ?_, ?_, ?_⟩
    · rw [hdirAt', hjb, hstlen']
      exact hbid
    · rw [hbat'j, hd', hglob']
      exact hdepj
    · rw [hbat'j, hs', hbsz']
      exact hszj
    · rw [hbat'j, hbsz']
      rcases hlist' with ⟨_, hl, _⟩ | ⟨hl, hlt, _⟩
      · omega
      · rw [hl]
        simp only [List.length_append, List.length_singleton]
        omega
    · rw [hbat'j]
      rcases hlist' with ⟨hl, _, _⟩ | ⟨hl, _, hknotin⟩
      · rw [hl]
        exact hndj
      · rw [hl, List.map_append]
        refine List.Nodup.append hndj (List.nodup_singleton k) ?_
        intro a ha hak
        rcases List.mem_singleton.mp hak with rfl
        exact hknotin ha
    · rw [hbat'j, hd', hhf']
      intro p hp
      rcases hlist' with ⟨hl, _, hmem⟩ | ⟨hl, _, _⟩
      · rcases hmem p hp with ⟨q, hq, hq1⟩
        rw [← hq1]
        exact hresj q hq
      · rw [hl] at hp
        rcases List.mem_append.mp hp with hp | hp
        · exact hresj p hp
        · rcases List.mem_singleton.mp hp with rfl
          have h1 : t.hashF k % 2 ^ b.depth = i0 % 2 ^ b.depth := by
            have : i0 = t.hashF k % 2 ^ t.globalDepth := indexOf_eq_mod t k
            rw [this, mod_mod_two_pow_of_le hdep]
          rw [h1, hji0]
    · rw [hbat'j, hd', hdir']
      intro j' hj'
      rw [hdirAt', hdirAt', hjb]
      have := hcharj j' hj'
      rw [hjb] at this
      exact this
  · -- entry j references an unmodified bucket
    have hbat'j : t'.bucketAt j = t.bucketAt j := by
      show t'.bucketOf (t'.dirAt j) = t.bucketOf (t.dirAt j)
      rw [hdirAt', hbo_ne _ hjb]
    refine ⟨?_, ?_, ?_, ?_, ?_, ?_, ?_⟩
    · rw [hdirAt', hstlen']
      exact hbidj
    · rw [hbat'j, hglob']
      exact hdepj
    · rw [hbat'j, hbsz']
      exact hszj
    · rw [hbat'j, hbsz']
      exact hblenj
    · rw [hbat'j]
      exact hndj
    · rw [hbat'j, hhf']
      exact hresj
    · rw [hbat'j, hdir']
      intro j' hj'
      rw [hdirAt', hdirAt']
      exact hcharj j' hj'

theorem inv_doubleDir {K V : Type} (t : EHT K V) (hInv : t.Inv) :
    t.doubleDir.Inv := by
  obtain ⟨hlen, hok⟩ := hInv
  have h2g : (0 : Nat) < 2 ^ t.globalDepth := Nat.pos_pow_of_pos _ (by omega)
  set u := t.doubleDir with hudef
  have hu_dir : u.dir = t.dir ++ t.dir := rfl
  have hu_g : u.globalDepth = t.globalDepth + 1 := rfl
  have hulen : u.dir.length = 2 ^ (t.globalDepth + 1) := by
    rw [hu_dir, List.length_append, hlen, pow_succ]
    omega
  have hu_at : ∀ j, j < u.dir.length →
      u.dirAt j = t.dirAt (j % 2 ^ t.globalDepth) := by
    intro j hj
    show (t.dir ++ t.dir).getD j 0 = t.dir.getD (j % 2 ^ t.globalDepth) 0
    by_cases h : j < t.dir.length
    · rw [getD_append_left _ _ _ _ h, Nat.mod_eq_of_lt (hlen ▸ h)]
    · rw [getD_append_mid _ _ _ _ (Nat.le_of_not_lt h)]
      congr 1
      rw [hlen]
      rw [hulen, pow_succ] at hj
      rw [hlen] at h
      rw [Nat.mod_eq_sub_mod (Nat.le_of_not_lt h), Nat.mod_eq_of_lt (by omega)]
  have hu_bo : ∀ x, u.bucketOf x = t.bucketOf x := fun _ => rfl
  have hu_stlen : u.store.length = t.store.length := rfl
  refine ⟨by rw [hulen, hu_g], ?_⟩
  intro i hi
  have hi1 : i % 2 ^ t.globalDepth < t.dir.length := by
    rw [hlen]
    exact Nat.mod_lt _ h2g
  obtain ⟨hbid, hdep, hsz, hblen, hnd, hres, hchar⟩ := hok _ hi1
  have hbat : u.bucketAt i = t.bucketAt (i % 2 ^ t.globalDepth) := by
    show u.bucketOf (u.dirAt i) = t.bucketOf (t.dirAt (i % 2 ^ t.globalDepth))
    rw [hu_at i hi]
    exact hu_bo _
  have hdlt : (t.bucketAt (i % 2 ^ t.globalDepth)).depth ≤ t.globalDepth := hdep
  refine ⟨?_, ?_, ?_, ?_, ?_, ?_, ?_⟩
  · rw [hu_at i hi, hu_stlen]
    exact hbid
  · rw [hbat, hu_g]
    omega
  · rw [hbat]
    exact hsz
  · rw [hbat]
    exact hblen
  · rw [hbat]
    exact hnd
  · rw [hbat]
    intro p hp
    show t.hashF p.1 % _ = _
    rw [hres p hp, mod_mod_two_pow_of_le hdlt]
  · rw [hbat]
    intro j hj
    rw [hu_at j hj, hu_at i hi]
    rw [hchar _ (by rw [hlen]; exact Nat.mod_lt _ h2g)]
    rw [mod_mod_two_pow_of_le hdlt, mod_mod_two_pow_of_le hdlt]

theorem inv_splitAt {K V : Type} [DecidableEq K] (u : EHT K V) (i0 : Nat)
    (hInv : u.Inv) (hi0 : i0 < u.dir.length)
    (hd : (u.bucketAt i0).depth < u.globalDepth) :
    (u.splitAt (u.dirAt i0)).Inv := by
  obtain ⟨hlen, hok⟩ := hInv
  set bid := u.dirAt i0 with hbiddef
  obtain ⟨hbid, hdep, hsz, hblen, hnd, hres, hchar⟩ := hok i0 hi0
  set tb := u.bucketOf bid with htbdef
  have htb0 : u.bucketAt i0 = tb := rfl
  rw [htb0] at hdep hsz hblen hnd hres hchar hd
  set d := tb.depth with hddef
  set L := u.store.length with hLdef
  have hrlt : i0 % 2 ^ d < 2 ^ d := Nat.mod_lt _ (Nat.pos_pow_of_pos _ (by omega))
  -- the two split buckets
  have hfill := fillSplit_spec u.hashF (2 ^ d) u.bucketSize tb.list
    ⟨u.bucketSize, d + 1, []⟩ ⟨u.bucketSize, d + 1, []⟩ rfl rfl hnd
    (by intro p _ hc; simp at hc) (by intro p _ hc; simp at hc)
    (by simpa using hblen)
  set f0 := tb.list.filter (fun p => decide (u.hashF p.1 &&& 2 ^ d = 0)) with hf0def
  set f1 := tb.list.filter (fun p => decide (u.hashF p.1 &&& 2 ^ d ≠ 0)) with hf1def
  set w := u.splitAt bid with hwdef
  have hw_g : w.globalDepth = u.globalDepth := rfl
  have hw_hf : w.hashF = u.hashF := rfl
  have hw_bs : w.bucketSize = u.bucketSize := rfl
  have hw_dir : w.dir = rewriteDir bid L (L + 1) (2 ^ d) 0 u.dir := rfl
  have hw_store : w.store
      = u.store ++ [⟨u.bucketSize, d + 1, [] ++ f0⟩, ⟨u.bucketSize, d + 1, [] ++ f1⟩] := by
    show u.store ++ _ = _
    rw [hfill]
  have hw_stlen : w.store.length = L + 2 := by
    rw [hw_store, List.length_append]
    rfl
  have hwlen : w.dir.length = u.dir.length := by
    rw [hw_dir, length_rewriteDir]
  have hw_at : ∀ j, j < u.dir.length →
      w.dirAt j = if u.dirAt j = bid
        then (if j &&& 2 ^ d ≠ 0 then L + 1 else L) else u.dirAt j := by
    intro j hj
    show (rewriteDir bid L (L + 1) (2 ^ d) 0 u.dir).getD j 0 = _
    rw [getD_rewriteDir _ _ _ _ _ _ _ hj]
    simp only [Nat.zero_add]
    rfl
  have hw_bo_old : ∀ x, x < L → w.bucketOf x = u.bucketOf x := by
    intro x hx
    show w.store.getD x _ = u.store.getD x _
    rw [hw_store, getD_append_left _ _ _ _ hx]
  have hw_bo_c0 : w.bucketOf L = ⟨u.bucketSize, d + 1, f0⟩ := by
    show w.store.getD L _ = _
    rw [hw_store, getD_append_mid _ _ _ _ (by omega), hLdef]
    simp
  have hw_bo_c1 : w.bucketOf (L + 1) = ⟨u.bucketSize, d + 1, f1⟩ := by
    show w.store.getD (L + 1) _ = _
    rw [hw_store, getD_append_mid _ _ _ _ (by omega), hLdef]
    simp
  have hvals : ∀ j, j < u.dir.length → u.dirAt j < L := by
    intro j hj
    exact (hok j hj).1
  refine ⟨by rw [hwlen, hw_g]; exact hlen, ?_⟩
  intro i hi
  rw [hwlen] at hi
  obtain ⟨hbidi, hdepi, hszi, hbleni, hndi, hresi, hchari⟩ := hok i hi
  by_cases hib : u.dirAt i = bid
  · -- entry i pointed to the split bucket
    have hir : i % 2 ^ d = i0 % 2 ^ d := (hchar i hi).mp hib
    by_cases hbit : i &&& 2 ^ d ≠ 0
    · -- the sibling side
      have hwi : w.dirAt i = L + 1 := by
        rw [hw_at i hi, if_pos hib, if_pos hbit]
      have hwbat : w.bucketAt i = ⟨u.bucketSize, d + 1, f1⟩ := by
        show w.bucketOf (w.dirAt i) = _
        rw [hwi, hw_bo_c1]
      have hii : i % 2 ^ (d + 1) = i0 % 2 ^ d + 2 ^ d :=
        (mod_pow_succ_split i d hrlt).2.mpr ⟨hir, hbit⟩
      refine ⟨?_, ?_, ?_, ?_, ?_, ?_, ?_⟩
      · rw [hwi, hw_stlen]
        omega
      · rw [hwbat, hw_g]
        show d + 1 ≤ u.globalDepth
        omega
      · rw [hwbat, hw_bs]
      · rw [hwbat, hw_bs]
        calc f1.length ≤ tb.list.length := List.length_filter_le _ _
        _ ≤ u.bucketSize := hblen
      · rw [hwbat]
        exact List.Nodup.sublist (List.Sublist.map _ (List.filter_sublist _)) hnd
      · rw [hwbat, hw_hf]
        intro p hp
        have hmem := List.mem_filter.mp hp
        have hpr : u.hashF p.1 % 2 ^ d = i0 % 2 ^ d := hres p hmem.1
        have hpb : u.hashF p.1 &&& 2 ^ d ≠ 0 := by
          have := hmem.2
          simpa using this
        show u.hashF p.1 % 2 ^ (d + 1) = i % 2 ^ (d + 1)
        rw [hii]
        exact (mod_pow_succ_split _ d hrlt).2.mpr ⟨hpr, hpb⟩
      · rw [hwbat]
        intro j hj
        rw [hwlen] at hj
        show w.dirAt j = w.dirAt i ↔ j % 2 ^ (d + 1) = i % 2 ^ (d + 1)
        rw [hwi, hii, hw_at j hj]
        constructor
        · intro hj'
          by_cases hjb : u.dirAt j = bid
          · rw [if_pos hjb] at hj'
            by_cases hjbit : j &&& 2 ^ d ≠ 0
            · exact (mod_pow_succ_split j d hrlt).2.mpr ⟨(hchar j hj).mp hjb, hjbit⟩
            · rw [if_neg hjbit] at hj'
              omega
          · rw [if_neg hjb] at hj'
            have := hvals j hj
            omega
        · intro hj'
          have hsplit := (mod_pow_succ_split j d hrlt).2.mp hj'
          have hjb : u.dirAt j = bid := (hchar j hj).mpr hsplit.1
          rw [if_pos hjb, if_pos hsplit.2]
    · -- the retained side
      have hwi : w.dirAt i = L := by
        rw [hw_at i hi, if_pos hib, if_neg hbit]
      have hwbat : w.bucketAt i = ⟨u.bucketSize, d + 1, f0⟩ := by
        show w.bucketOf (w.dirAt i) = _
        rw [hwi, hw_bo_c0]
      have hbit0 : i &&& 2 ^ d = 0 := by
        by_cases h : i &&& 2 ^ d = 0
        · exact h
        · exact absurd h hbit
      have hii : i % 2 ^ (d + 1) = i0 % 2 ^ d :=
        (mod_pow_succ_split i d hrlt).1.mpr ⟨hir, hbit0⟩
      refine ⟨?_, ?_, ?_, ?_, ?_, ?_, ?_⟩
      · rw [hwi, hw_stlen]
        omega
      · rw [hwbat, hw_g]
        show d + 1 ≤ u.globalDepth
        omega
      · rw [hwbat, hw_bs]
      · rw [hwbat, hw_bs]
        calc f0.length ≤ tb.list.length := List.length_filter_le _ _
        _ ≤ u.bucketSize := hblen
      · rw [hwbat]
        exact List.Nodup.sublist (List.Sublist.map _ (List.filter_sublist _)) hnd
      · rw [hwbat, hw_hf]
        intro p hp
        have hmem := List.mem_filter.mp hp
        have hpr : u.hashF p.1 % 2 ^ d = i0 % 2 ^ d := hres p hmem.1
        have hpb : u.hashF p.1 &&& 2 ^ d = 0 := by
          have := hmem.2
          simpa using this
        show u.hashF p.1 % 2 ^ (d + 1) = i % 2 ^ (d + 1)
        rw [hii]
        exact (mod_pow_succ_split _ d hrlt).1.mpr ⟨hpr, hpb⟩
      · rw [hwbat]
        intro j hj
        rw [hwlen] at hj
        show w.dirAt j = w.dirAt i ↔ j % 2 ^ (d + 1) = i % 2 ^ (d + 1)
        rw [hwi, hii, hw_at j hj]
        constructor
        · intro hj'
          by_cases hjb : u.dirAt j = bid
          · rw [if_pos hjb] at hj'
            by_cases hjbit : j &&& 2 ^ d ≠ 0
            · rw [if_pos hjbit] at hj'
              omega
            · have hjbit0 : j &&& 2 ^ d = 0 := by
                by_cases h : j &&& 2 ^ d = 0
                · exact h
                · exact absurd h hjbit
              exact (mod_pow_succ_split j d hrlt).1.mpr ⟨(hchar j hj).mp hjb, hjbit0⟩
          · rw [if_neg hjb] at hj'
            have := hvals j hj
            omega
        · intro hj'
          have hsplit := (mod_pow_succ_split j d hrlt).1.mp hj'
          have hjb : u.dirAt j = bid := (hchar j hj).mpr hsplit.1
          rw [if_pos hjb, if_neg (by simpa using hsplit.2)]
  · -- entry i pointed elsewhere
    have hwi : w.dirAt i = u.dirAt i := by
      rw [hw_at i hi, if_neg hib]
    have hwbat : w.bucketAt i = u.bucketAt i := by
      show w.bucketOf (w.dirAt i) = u.bucketOf (u.dirAt i)
      rw [hwi, hw_bo_old _ (hvals i hi)]
    refine ⟨?_, ?_, ?_, ?_, ?_, ?_, ?_⟩
    · rw [hwi, hw_stlen]
      have := hvals i hi
      omega
    · rw [hwbat, hw_g]
      exact hdepi
    · rw [hwbat, hw_bs]
      exact hszi
    · rw [hwbat, hw_bs]
      exact hbleni
    · rw [hwbat]
      exact hndi
    · rw [hwbat, hw_hf]
      exact hresi
    · rw [hwbat]
      intro j hj
      rw [hwlen] at hj
      show w.dirAt j = w.dirAt i ↔ _
      rw [hwi, hw_at j hj]
      by_cases hjb : u.dirAt j = bid
      · rw [if_pos hjb]
        constructor
        · intro hj'
          have h1 := hvals i hi
          by_cases hjbit : j &&& 2 ^ d ≠ 0 <;>
            [rw [if_pos hjbit] at hj'; rw [if_neg hjbit] at hj'] <;> omega
        · intro hj'
          have h1 : u.dirAt j = u.dirAt i := (hchari j hj).mpr hj'
          exact absurd (h1.symm.trans hjb) hib
      · rw [if_neg hjb]
        exact hchari j hj

theorem inv_splitStep {K V : Type} [DecidableEq K] (t : EHT K V) (k : K)
    (hInv : t.Inv) : (t.splitStep k).Inv := by
  obtain ⟨hlen, hok⟩ := hInv
  have hi0 : t.indexOf k < t.dir.length := indexOf_lt t k hlen
  obtain ⟨hbid, hdep, -, -, -, -, -⟩ := hok _ hi0
  show ((if (t.bucketOf (t.dirAt (t.indexOf k))).depth == t.globalDepth
      then t.doubleDir else t).splitAt (t.dirAt (t.indexOf k))).Inv
  by_cases hcase : (t.bucketOf (t.dirAt (t.indexOf k))).depth = t.globalDepth
  · rw [if_pos (beq_iff_eq.mpr hcase)]
    have hu := inv_doubleDir t ⟨hlen, hok⟩
    have heq : t.dirAt (t.indexOf k) = (t.doubleDir).dirAt (t.indexOf k) := by
      show t.dir.getD _ 0 = (t.dir ++ t.dir).getD _ 0
      rw [getD_append_left _ _ _ _ hi0]
    rw [heq]
    apply inv_splitAt _ _ hu
    · show t.indexOf k < (t.dir ++ t.dir).length
      simp only [List.length_append]
      omega
    · have hbb : (t.doubleDir).bucketAt (t.indexOf k) = t.bucketAt (t.indexOf k) := by
        show (t.doubleDir).bucketOf ((t.doubleDir).dirAt _) = t.bucketOf (t.dirAt _)
        rw [← heq]
        rfl
      rw [hbb]
      show (t.bucketAt (t.indexOf k)).depth < t.globalDepth + 1
      have h1 : (t.bucketAt (t.indexOf k)).depth = t.globalDepth := hcase
      omega
  · rw [if_neg (fun hc => hcase (beq_iff_eq.mp hc))]
    exact inv_splitAt t _ ⟨hlen, hok⟩ hi0 (Nat.lt_of_le_of_ne hdep hcase)

theorem inv_insertGo {K V : Type} [DecidableEq K] (k : K) (v : V) :
    ∀ (fuel : Nat) (t t' : EHT K V) (s : Nat),
      EHT.insertGo k v fuel t = some (t', s) → t.Inv → t'.Inv := by
  intro fuel
  induction fuel with
  | zero =>
    intro t t' s h hInv
    rw [EHT.insertGo] at h
    by_cases hf : (t.bucketAt (t.indexOf k)).isFull = true
    · rw [if_pos hf] at h
      exact absurd h (by simp)
    · rw [if_neg hf] at h
      have h2 := Option.some.inj h
      have ht' : t' = t.finalInsert k v := (congrArg Prod.fst h2).symm
      rw [ht']
      exact inv_finalInsert t k v hInv (Bool.eq_false_iff.mpr hf)
  | succ fuel ih =>
    intro t t' s h hInv
    rw [EHT.insertGo] at h
    by_cases hf : (t.bucketAt (t.indexOf k)).isFull = true
    · rw [if_pos hf] at h
      rcases Option.map_eq_some'.mp h with ⟨⟨t'', s''⟩, hrec, heq⟩
      have ht' : t' = t'' := (congrArg Prod.fst heq).symm
      rw [ht']
      exact ih (t.splitStep k) t'' s'' hrec (inv_splitStep t k hInv)
    · rw [if_neg hf] at h
      have h2 := Option.some.inj h
      have ht' : t' = t.finalInsert k v := (congrArg Prod.fst h2).symm
      rw [ht']
      exact inv_finalInsert t k v hInv (Bool.eq_false_iff.mpr hf)

theorem numBuckets_splitStep {K V : Type} [DecidableEq K] (t : EHT K V)
    (k : K) : (t.splitStep k).numBuckets = t.numBuckets + 1 := by
  show (if (t.bucketOf (t.dirAt (t.indexOf k))).depth == t.globalDepth
      then t.doubleDir else t).numBuckets + 1 = t.numBuckets + 1
  congr 1
  split <;> rfl

theorem insertGo_numBuckets {K V : Type} [DecidableEq K] (k : K) (v : V) :
    ∀ (fuel : Nat) (t t' : EHT K V) (s : Nat),
      EHT.insertGo k v fuel t = some (t', s) →
      t'.numBuckets = t.numBuckets + s := by
  intro fuel
  induction fuel with
  | zero =>
    intro t t' s h
    rw [EHT.insertGo] at h
    by_cases hf : (t.bucketAt (t.indexOf k)).isFull = true
    · rw [if_pos hf] at h
      exact absurd h (by simp)
    · rw [if_neg hf] at h
      have h2 := Option.some.inj h
      have ht' : t' = t.finalInsert k v := (congrArg Prod.fst h2).symm
      have hs : s = 0 := (congrArg Prod.snd h2).symm
      rw [ht', hs]
      rfl
  | succ fuel ih =>
    intro t t' s h
    rw [EHT.insertGo] at h
    by_cases hf : (t.bucketAt (t.indexOf k)).isFull = true
    · rw [if_pos hf] at h
      rcases Option.map_eq_some'.mp h with ⟨⟨t'', s''⟩, hrec, heq⟩
      have ht' : t' = t'' := (congrArg Prod.fst heq).symm
      have hs : s = s'' + 1 := (congrArg Prod.snd heq).symm
      have h1 := ih (t.splitStep k) t'' s'' hrec
      rw [ht', hs, h1, numBuckets_splitStep]
      omega
    · rw [if_neg hf] at h
      have h2 := Option.some.inj h
      have ht' : t' = t.finalInsert k v := (congrArg Prod.fst h2).symm
      have hs : s = 0 := (congrArg Prod.snd h2).symm
      rw [ht', hs]
      rfl

theorem and_two_pow_mod_eq (x n d : Nat) (h : d < n) :
    (x % 2 ^ n) &&& 2 ^ d = x &&& 2 ^ d := by
  rw [Nat.and_two_pow, Nat.and_two_pow, Nat.testBit_mod_two_pow]
  simp [h]

/-- Splitting a bucket that holds exactly one pair, whose key is the one
being inserted, again yields such a bucket at the key's directory index:
the item follows the key's own hash bit, and so does the rewritten
directory entry. -/
theorem splitAt_trap_core {K V : Type} [DecidableEq K] (u : EHT K V)
    (k : K) (w : V) (bid : Nat)
    (hu_i1 : u.indexOf k < u.dir.length)
    (hu_at : u.dirAt (u.indexOf k) = bid)
    (hu_b : (u.bucketOf bid).list = [(k, w)])
    (hu_sz : u.bucketSize = 1)
    (heq : u.indexOf k &&& 2 ^ (u.bucketOf bid).depth
      = u.hashF k &&& 2 ^ (u.bucketOf bid).depth) :
    ((u.splitAt bid).bucketAt ((u.splitAt bid).indexOf k)).list = [(k, w)] := by
  set tb := u.bucketOf bid with htbdef
  set d := tb.depth with hddef
  set L := u.store.length with hLdef
  have hfill := fillSplit_spec u.hashF (2 ^ d) u.bucketSize tb.list
    ⟨u.bucketSize, d + 1, []⟩ ⟨u.bucketSize, d + 1, []⟩ rfl rfl
    (by rw [hu_b]; simp)
    (by intro p _ hc; simp at hc) (by intro p _ hc; simp at hc)
    (by rw [hu_b, hu_sz]; simp)
  set wst := u.splitAt bid with hwdef
  have hw_idx : wst.indexOf k = u.indexOf k := rfl
  have hw_dir : wst.dir = rewriteDir bid L (L + 1) (2 ^ d) 0 u.dir := rfl
  have hw_at : wst.dirAt (u.indexOf k)
      = if u.dirAt (u.indexOf k) = bid
        then (if u.indexOf k &&& 2 ^ d ≠ 0 then L + 1 else L)
        else u.dirAt (u.indexOf k) := by
    show (rewriteDir bid L (L + 1) (2 ^ d) 0 u.dir).getD (u.indexOf k) 0 = _
    rw [getD_rewriteDir _ _ _ _ _ _ _ hu_i1]
    simp only [Nat.zero_add]
    rfl
  by_cases hkb : u.hashF k &&& 2 ^ d = 0
  · have hf : fillSplit u.hashF (2 ^ d) tb.list
        (⟨u.bucketSize, d + 1, []⟩, ⟨u.bucketSize, d + 1, []⟩)
        = (⟨u.bucketSize, d + 1, [(k, w)]⟩, ⟨u.bucketSize, d + 1, []⟩) := by
      rw [hfill, hu_b]
      simp [hkb]
    have hw_store : wst.store = u.store ++ [⟨u.bucketSize, d + 1, [(k, w)]⟩,
        ⟨u.bucketSize, d + 1, []⟩] := by
      show u.store ++ _ = _
      rw [hf]
    have hbit : ¬ u.indexOf k &&& 2 ^ d ≠ 0 := by
      rw [heq]
      simpa using hkb
    have h1 : wst.dirAt (u.indexOf k) = L := by
      rw [hw_at, if_pos hu_at, if_neg hbit]
    show (wst.bucketOf (wst.dirAt (wst.indexOf k))).list = [(k, w)]
    rw [hw_idx, h1]
    show (wst.store.getD L _).list = _
    rw [hw_store, getD_append_mid _ _ _ _ (by omega), hLdef]
    simp
  · have hf : fillSplit u.hashF (2 ^ d) tb.list
        (⟨u.bucketSize, d + 1, []⟩, ⟨u.bucketSize, d + 1, []⟩)
        = (⟨u.bucketSize, d + 1, []⟩, ⟨u.bucketSize, d + 1, [(k, w)]⟩) := by
      rw [hfill, hu_b]
      simp [hkb]
    have hw_store : wst.store = u.store ++ [⟨u.bucketSize, d + 1, []⟩,
        ⟨u.bucketSize, d + 1, [(k, w)]⟩] := by
      show u.store ++ _ = _
      rw [hf]
    have hbit : u.indexOf k &&& 2 ^ d ≠ 0 := by
      rw [heq]
      exact hkb
    have h1 : wst.dirAt (u.indexOf k) = L + 1 := by
      rw [hw_at, if_pos hu_at, if_pos hbit]
    show (wst.bucketOf (wst.dirAt (wst.indexOf k))).list = [(k, w)]
    rw [hw_idx, h1]
    show (wst.store.getD (L + 1) _).list = _
    rw [hw_store, getD_append_mid _ _ _ _ (by omega), hLdef]
    simp

theorem splitStep_trap {K V : Type} [DecidableEq K] (t : EHT K V) (k : K)
    (w : V) (hInv : t.Inv) (hsz : t.bucketSize = 1)
    (hb : (t.bucketAt (t.indexOf k)).list = [(k, w)]) :
    ((t.splitStep k).bucketAt ((t.splitStep k).indexOf k)).list = [(k, w)] := by
  obtain ⟨hlen, hok⟩ := hInv
  have hi0 : t.indexOf k < t.dir.length := indexOf_lt t k hlen
  obtain ⟨hbid, hdep, hszb, hblen, hnd, hres, hchar⟩ := hok _ hi0
  show (((if (t.bucketOf (t.dirAt (t.indexOf k))).depth == t.globalDepth
      then t.doubleDir else t).splitAt (t.dirAt (t.indexOf k))).bucketAt
      (((if (t.bucketOf (t.dirAt (t.indexOf k))).depth == t.globalDepth
      then t.doubleDir else t).splitAt (t.dirAt (t.indexOf k))).indexOf k)).list
      = [(k, w)]
  by_cases hcase : (t.bucketOf (t.dirAt (t.indexOf k))).depth = t.globalDepth
  · rw [if_pos (beq_iff_eq.mpr hcase)]
    have hulen : (t.doubleDir).dir.length = 2 ^ (t.globalDepth + 1) := by
      show (t.dir ++ t.dir).length = _
      rw [List.length_append, hlen, pow_succ]
      omega
    apply splitAt_trap_core
    · exact indexOf_lt _ k hulen
    · show (t.dir ++ t.dir).getD ((t.doubleDir).indexOf k) 0 = t.dirAt (t.indexOf k)
      have hidx : (t.doubleDir).indexOf k = t.hashF k % 2 ^ (t.globalDepth + 1) :=
        indexOf_eq_mod _ k
      by_cases hsmall : (t.doubleDir).indexOf k < t.dir.length
      · rw [getD_append_left _ _ _ _ hsmall]
        have heq2 : (t.doubleDir).indexOf k = t.indexOf k := by
          rw [hlen, hidx] at hsmall
          rw [hidx, indexOf_eq_mod t k,
            ← mod_mod_two_pow_of_le (by omega : t.globalDepth ≤ t.globalDepth + 1) (t.hashF k),
            Nat.mod_eq_of_lt hsmall]
        rw [heq2]
        rfl
      · rw [getD_append_mid _ _ _ _ (Nat.le_of_not_lt hsmall)]
        have hlt2 : t.hashF k % 2 ^ (t.globalDepth + 1) < 2 ^ (t.globalDepth + 1) :=
          Nat.mod_lt _ (Nat.pos_pow_of_pos _ (by omega))
        have hge : 2 ^ t.globalDepth ≤ t.hashF k % 2 ^ (t.globalDepth + 1) := by
          rw [hlen, hidx] at hsmall
          omega
        have e1 : t.hashF k % 2 ^ (t.globalDepth + 1) % 2 ^ t.globalDepth
            = t.hashF k % 2 ^ t.globalDepth :=
          mod_mod_two_pow_of_le (by omega) _
        have e2 : (t.hashF k % 2 ^ (t.globalDepth + 1) - 2 ^ t.globalDepth)
              % 2 ^ t.globalDepth
            = t.hashF k % 2 ^ (t.globalDepth + 1) - 2 ^ t.globalDepth :=
          Nat.mod_eq_of_lt (by
            have hp : (2 : Nat) ^ (t.globalDepth + 1) = 2 ^ t.globalDepth * 2 :=
              pow_succ 2 _
            omega)
        have heq2 : (t.doubleDir).indexOf k - t.dir.length = t.indexOf k := by
          rw [hidx, hlen, indexOf_eq_mod t k, ← e1, Nat.mod_eq_sub_mod hge, e2]
        rw [heq2]
        rfl
    · show (t.bucketOf (t.dirAt (t.indexOf k))).list = _
      exact hb
    · exact hsz
    · show (t.doubleDir).indexOf k &&& _ = t.hashF k &&& _
      rw [indexOf_eq_mod]
      exact and_two_pow_mod_eq _ _ _ (by
        show (t.bucketOf (t.dirAt (t.indexOf k))).depth < t.globalDepth + 1
        omega)
  · rw [if_neg (fun hc => hcase (beq_iff_eq.mp hc))]
    apply splitAt_trap_core
    · exact hi0
    · rfl
    · exact hb
    · exact hsz
    · have hd2 : (t.bucketOf (t.dirAt (t.indexOf k))).depth < t.globalDepth := by
        exact Nat.lt_of_le_of_ne hdep hcase
      rw [indexOf_eq_mod t k] at hd2
      rw [indexOf_eq_mod t k]
      exact and_two_pow_mod_eq _ _ _ hd2

theorem bucketSize_splitStep {K V : Type} [DecidableEq K] (t : EHT K V)
    (k : K) : (t.splitStep k).bucketSize = t.bucketSize := by
  show (if (t.bucketOf (t.dirAt (t.indexOf k))).depth == t.globalDepth
      then t.doubleDir else t).bucketSize = t.bucketSize
  split <;> rfl

/-- With `bucket_capacity = 1`, inserting a key whose bucket already holds
exactly that key never terminates: the bucket stays full at every depth. -/
theorem insertGo_trap {K V : Type} [DecidableEq K] (k : K) (w v : V) :
    ∀ (fuel : Nat) (t : EHT K V), t.Inv → t.bucketSize = 1 →
      (t.bucketAt (t.indexOf k)).list = [(k, w)] →
      EHT.insertGo k v fuel t = none := by
  intro fuel
  induction fuel with
  | zero =>
    intro t hInv hsz hb
    have hszb := (hInv.2 _ (indexOf_lt t k hInv.1)).2.2.1
    rw [EHT.insertGo, if_pos (by simp [Bucket.isFull, hb, hszb, hsz])]
  | succ fuel ih =>
    intro t hInv hsz hb
    have hszb := (hInv.2 _ (indexOf_lt t k hInv.1)).2.2.1
    rw [EHT.insertGo, if_pos (by simp [Bucket.isFull, hb, hszb, hsz])]
    rw [ih (t.splitStep k) (inv_splitStep t k hInv)
      (by rw [bucketSize_splitStep]; exact hsz)
      (splitStep_trap t k w hInv hsz hb)]
    rfl

theorem refCount_of_inv {K V : Type} (t : EHT K V) (hInv : t.Inv) :
    ∀ i < t.dir.length,
      t.refCount (t.dirAt i) = 2 ^ (t.globalDepth - (t.bucketAt i).depth) := by
  obtain ⟨hlen, hok⟩ := hInv
  intro i hi
  obtain ⟨-, hdep, -, -, -, -, hchar⟩ := hok i hi
  exact count_of_char hdep
    (Nat.mod_lt _ (Nat.pos_pow_of_pos _ (by omega))) t.dir hlen _
    (fun j hj => hchar j hj)

/-! ## Replacer lemmas -/

theorem findN_eq (r : LRUK) (fid : Int) :
    r.findN fid = (r.infL ++ r.cntL).find? (fun n => decide (n.fid = fid)) := by
  rw [List.find?_append]
  unfold LRUK.findN
  cases r.infL.find? (fun n => decide (n.fid = fid)) <;> rfl

theorem unique_of_pairwise_ne {l : List RNode}
    (hp : l.Pairwise (fun a b => a.fid ≠ b.fid)) {m n : RNode}
    (hm : m ∈ l) (hn : n ∈ l) (hf : m.fid = n.fid) : m = n := by
  induction l with
  | nil => simp at hm
  | cons a rest ih =>
    rw [List.pairwise_cons] at hp
    rcases List.mem_cons.mp hm with rfl | hm' <;>
      rcases List.mem_cons.mp hn with rfl | hn'
    · rfl
    · exact absurd hf (hp.1 n hn')
    · exact absurd hf.symm (hp.1 m hm')
    · exact ih hp.2 hm' hn'

theorem find?_fid_unique {l : List RNode}
    (hp : l.Pairwise (fun a b => a.fid ≠ b.fid)) {n : RNode} (hn : n ∈ l) :
    l.find? (fun m => decide (m.fid = n.fid)) = some n := by
  induction l with
  | nil => simp at hn
  | cons a rest ih =>
    rw [List.pairwise_cons] at hp
    rcases List.mem_cons.mp hn with rfl | hn'
    · simp
    · rw [List.find?_cons_of_neg _ (by simpa using hp.1 n hn'), ih hp.2 hn']

theorem eraseN_no_fid {l : List RNode}
    (hp : l.Pairwise (fun a b => a.fid ≠ b.fid)) (fid : Int) :
    ∀ m ∈ eraseN l fid, m.fid ≠ fid := by
  induction l with
  | nil => intro m hm; simp [eraseN] at hm
  | cons a rest ih =>
    rw [List.pairwise_cons] at hp
    intro m hm
    by_cases ha : a.fid = fid
    · have : eraseN (a :: rest) fid = rest := by
        simp [eraseN, List.eraseP_cons, ha]
      rw [this] at hm
      intro hc
      exact hp.1 m hm (ha.trans hc.symm)
    · have : eraseN (a :: rest) fid = a :: eraseN rest fid := by
        simp [eraseN, List.eraseP_cons, ha]
      rw [this] at hm
      rcases List.mem_cons.mp hm with rfl | hm'
      · exact ha
      · exact ih hp.2 m hm'

theorem eraseN_sublist (l : List RNode) (fid : Int) :
    List.Sublist (eraseN l fid) l :=
  List.eraseP_sublist l

theorem find?_min_last {l : List RNode}
    (hp : l.Pairwise (fun a b => a.last < b.last)) {n : RNode}
    (h : l.find? (fun m => m.evict) = some n) :
    n.evict = true ∧ n ∈ l ∧ ∀ m ∈ l, m.evict = true → n.last ≤ m.last := by
  induction l with
  | nil => simp at h
  | cons a rest ih =>
    rw [List.pairwise_cons] at hp
    by_cases he : a.evict
    · rw [List.find?_cons_of_pos _ he] at h
      have hn : n = a := (Option.some.inj h).symm
      subst hn
      refine ⟨he, List.mem_cons_self _ _, ?_⟩
      intro m hm _
      rcases List.mem_cons.mp hm with rfl | hm'
      · exact Nat.le_refl _
      · exact Nat.le_of_lt (hp.1 m hm')
    · rw [List.find?_cons_of_neg _ he] at h
      obtain ⟨h1, h2, h3⟩ := ih hp.2 h
      refine ⟨h1, List.mem_cons_of_mem _ h2, ?_⟩
      intro m hm hme
      rcases List.mem_cons.mp hm with rfl | hm'
      · exact absurd hme (by simpa using he)
      · exact h3 m hm' hme

theorem ok_removeInternal {r r' : LRUK} {fid : Int}
    (h : r.removeInternal fid = some r') (hOk : r.Ok) : r'.Ok := by
  obtain ⟨hk, hbi, hbc, hsi, hsc, hci, hcc, hf⟩ := hOk
  unfold LRUK.removeInternal at h
  cases hfn : r.findN fid with
  | none =>
    simp only [hfn] at h
    rw [← Option.some.inj h]
    exact ⟨hk, hbi, hbc, hsi, hsc, hci, hcc, hf⟩
  | some n =>
    simp only [hfn] at h
    by_cases he : n.evict
    · rw [if_pos he] at h
      by_cases hc : n.cnt ≥ r.k
      · rw [if_pos hc] at h
        rw [← Option.some.inj h]
        refine ⟨hk, hbi, ?_, hsi, ?_, hci, ?_, ?_⟩
        · intro m hm
          exact hbc m ((eraseN_sublist _ _).subset hm)
        · exact List.Pairwise.sublist (eraseN_sublist _ _) hsc
        · intro m hm
          exact hcc m ((eraseN_sublist _ _).subset hm)
        · exact List.Pairwise.sublist
            (List.Sublist.append (List.Sublist.refl _) (eraseN_sublist _ _)) hf
      · rw [if_neg hc] at h
        rw [← Option.some.inj h]
        refine ⟨hk, ?_, hbc, ?_, hsc, ?_, hcc, ?_⟩
        · intro m hm
          exact hbi m ((eraseN_sublist _ _).subset hm)
        · exact List.Pairwise.sublist (eraseN_sublist _ _) hsi
        · intro m hm
          exact hci m ((eraseN_sublist _ _).subset hm)
        · exact List.Pairwise.sublist
            (List.Sublist.append (eraseN_sublist _ _) (List.Sublist.refl _)) hf
    · rw [if_neg he] at h
      exact absurd h (by simp)

theorem ok_setEvictable {r r' : LRUK} {fid : Int} {b : Bool}
    (h : r.setEvictable fid b = some r') (hOk : r.Ok) : r'.Ok := by
  obtain ⟨hk, hbi, hbc, hsi, hsc, hci, hcc, hf⟩ := hOk
  unfold LRUK.setEvictable at h
  by_cases ha : r.assertOk fid = true
  · rw [if_pos ha] at h
    cases hfn : r.findN fid with
    | none =>
      simp only [hfn] at h
      rw [← Option.some.inj h]
      exact ⟨hk, hbi, hbc, hsi, hsc, hci, hcc, hf⟩
    | some n =>
      simp only [hfn] at h
      have hlast : ∀ m : RNode,
          (if m.fid = fid then { m with evict := b } else m).last = m.last := by
        intro m
        split <;> rfl
      have hfid2 : ∀ m : RNode,
          (if m.fid = fid then { m with evict := b } else m).fid = m.fid := by
        intro m
        split <;> rfl
      have hcnt2 : ∀ m : RNode,
          (if m.fid = fid then { m with evict := b } else m).cnt = m.cnt := by
        intro m
        split <;> rfl
      have hOk' : ∀ cs : Nat,
          ({ r with
            infL := r.infL.map (fun m => if m.fid = fid then { m with evict := b } else m),
            cntL := r.cntL.map (fun m => if m.fid = fid then { m with evict := b } else m),
            curSize := cs } : LRUK).Ok := by
        intro cs
        refine ⟨hk, ?_, ?_, ?_, ?_, ?_, ?_, ?_⟩
        · intro m hm
          rcases List.mem_map.mp hm with ⟨m0, hm0, rfl⟩
          simp only [hlast]
          exact hbi m0 hm0
        · intro m hm
          rcases List.mem_map.mp hm with ⟨m0, hm0, rfl⟩
          simp only [hlast]
          exact hbc m0 hm0
        · rw [List.pairwise_map]
          exact hsi.imp (fun hab => by simp only [hlast]; exact hab)
        · rw [List.pairwise_map]
          exact hsc.imp (fun hab => by simp only [hlast]; exact hab)
        · intro m hm
          rcases List.mem_map.mp hm with ⟨m0, hm0, rfl⟩
          simp only [hcnt2]
          exact hci m0 hm0
        · intro m hm
          rcases List.mem_map.mp hm with ⟨m0, hm0, rfl⟩
          simp only [hcnt2]
          exact hcc m0 hm0
        · rw [← List.map_append, List.pairwise_map]
          exact hf.imp (fun hab => by simp only [hfid2]; exact hab)
      split_ifs at h <;> rw [← Option.some.inj h] <;>
        first
          | exact hOk' _
          | exact ⟨hk, hbi, hbc, hsi, hsc, hci, hcc, hf⟩
  · rw [if_neg ha] at h
    exact absurd h (by simp)

theorem ok_recordAccess {r r' : LRUK} {fid : Int}
    (h : r.recordAccess fid = some r') (hOk : r.Ok) : r'.Ok := by
  obtain ⟨hk, hbi, hbc, hsi, hsc, hci, hcc, hf⟩ := hOk
  rw [List.pairwise_append] at hf
  obtain ⟨hfi, hfc, hfcross⟩ := hf
  unfold LRUK.recordAccess at h
  by_cases ha : r.assertOk fid = true
  swap
  · rw [if_neg ha] at h
    exact absurd h (by simp)
  rw [if_pos ha] at h
  cases hfn : r.findN fid with
  | none =>
    simp only [hfn] at h
    have hno : ∀ m ∈ r.infL ++ r.cntL, ¬ ((fun n => decide (n.fid = fid)) m = true) := by
      rw [← List.find?_eq_none, ← findN_eq]
      exact hfn
    have hnoi : ∀ m ∈ r.infL, m.fid ≠ fid := fun m hm => by
      simpa using hno m (List.mem_append_left _ hm)
    have hnoc : ∀ m ∈ r.cntL, m.fid ≠ fid := fun m hm => by
      simpa using hno m (List.mem_append_right _ hm)
    by_cases hk1 : (r.k == 1) = true
    · rw [if_pos hk1] at h
      rw [← Option.some.inj h]
      refine ⟨hk, ?_, ?_, hsi, ?_, hci, ?_, ?_⟩
      · intro m hm
        exact Nat.lt_succ_of_lt (hbi m hm)
      · intro m hm
        rcases List.mem_append.mp hm with hm' | hm'
        · exact Nat.lt_succ_of_lt (hbc m hm')
        · rcases List.mem_singleton.mp hm' with rfl
          exact Nat.lt_succ_self _
      · rw [List.pairwise_append]
        refine ⟨hsc, List.pairwise_singleton _ _, ?_⟩
        intro a ha' b hb'
        rcases List.mem_singleton.mp hb' with rfl
        exact hbc a ha'
      · intro m hm
        rcases List.mem_append.mp hm with hm' | hm'
        · exact hcc m hm'
        · rcases List.mem_singleton.mp hm' with rfl
          show r.k ≤ 1
          have hkeq : r.k = 1 := by simpa using hk1
          omega
      · rw [List.pairwise_append]
        refine ⟨hfi, ?_, ?_⟩
        · rw [List.pairwise_append]
          refine ⟨hfc, List.pairwise_singleton _ _, ?_⟩
          intro a ha' b hb'
          rcases List.mem_singleton.mp hb' with rfl
          exact hnoc a ha'
        · intro a ha' b hb'
          rcases List.mem_append.mp hb' with hb'' | hb''
          · exact hfcross a ha' b hb''
          · rcases List.mem_singleton.mp hb'' with rfl
            exact hnoi a ha'
    · rw [if_neg hk1] at h
      rw [← Option.some.inj h]
      have hk2 : r.k ≠ 1 := by
        intro hc
        exact hk1 (by simp [hc])
      refine ⟨hk, ?_, ?_, ?_, hsc, ?_, hcc, ?_⟩
      · intro m hm
        rcases List.mem_append.mp hm with hm' | hm'
        · exact Nat.lt_succ_of_lt (hbi m hm')
        · rcases List.mem_singleton.mp hm' with rfl
          exact Nat.lt_succ_self _
      · intro m hm
        exact Nat.lt_succ_of_lt (hbc m hm)
      · rw [List.pairwise_append]
        refine ⟨hsi, List.pairwise_singleton _ _, ?_⟩
        intro a ha' b hb'
        rcases List.mem_singleton.mp hb' with rfl
        exact hbi a ha'
      · intro m hm
        rcases List.mem_append.mp hm with hm' | hm'
        · exact hci m hm'
        · rcases List.mem_singleton.mp hm' with rfl
          show 1 < r.k
          omega
      · rw [List.pairwise_append]
        refine ⟨?_, hfc, ?_⟩
        · rw [List.pairwise_append]
          refine ⟨hfi, List.pairwise_singleton _ _, ?_⟩
          intro a ha' b hb'
          rcases List.mem_singleton.mp hb' with rfl
          exact hnoi a ha'
        · intro a ha' b hb'
          rcases List.mem_append.mp ha' with ha'' | ha''
          · exact hfcross a ha'' b hb'
          · rcases List.mem_singleton.mp ha'' with rfl
            exact fun hc => hnoc b hb' hc.symm
  | some n =>
    simp only [hfn] at h
    have hfind : (r.infL ++ r.cntL).find? (fun m => decide (m.fid = fid)) = some n := by
      rw [← findN_eq]
      exact hfn
    have hnfid : n.fid = fid := by
      simpa using List.find?_some hfind
    have hnmem : n ∈ r.infL ++ r.cntL := List.mem_of_find?_eq_some hfind
    split_ifs at h with hc1 hc2
    · -- still below k: re-emplaced at the back of the history list
      have hloc : n ∈ r.infL := by
        rcases List.mem_append.mp hnmem with h' | h'
        · exact h'
        · exact absurd (hcc n h') (by omega)
      rw [← Option.some.inj h]
      refine ⟨hk, ?_, ?_, ?_, hsc, ?_, hcc, ?_⟩
      · intro m hm
        rcases List.mem_append.mp hm with hm' | hm'
        · exact Nat.lt_succ_of_lt (hbi m ((eraseN_sublist _ _).subset hm'))
        · rcases List.mem_singleton.mp hm' with rfl
          exact Nat.lt_succ_self _
      · intro m hm
        exact Nat.lt_succ_of_lt (hbc m hm)
      · rw [List.pairwise_append]
        refine ⟨List.Pairwise.sublist (eraseN_sublist _ _) hsi,
          List.pairwise_singleton _ _, ?_⟩
        intro a ha' b hb'
        rcases List.mem_singleton.mp hb' with rfl
        exact hbi a ((eraseN_sublist _ _).subset ha')
      · intro m hm
        rcases List.mem_append.mp hm with hm' | hm'
        · exact hci m ((eraseN_sublist _ _).subset hm')
        · rcases List.mem_singleton.mp hm' with rfl
          exact hc1
      · rw [List.pairwise_append]
        refine ⟨?_, hfc, ?_⟩
        · rw [List.pairwise_append]
          refine ⟨List.Pairwise.sublist (eraseN_sublist _ _) hfi,
            List.pairwise_singleton _ _, ?_⟩
          intro a ha' b hb'
          rcases List.mem_singleton.mp hb' with rfl
          exact eraseN_no_fid hfi fid a ha'
        · intro a ha' b hb'
          rcases List.mem_append.mp ha' with ha'' | ha''
          · exact hfcross a ((eraseN_sublist _ _).subset ha'') b hb'
          · rcases List.mem_singleton.mp ha'' with rfl
            show fid ≠ b.fid
            intro hc
            exact hfcross n hloc b hb' (hnfid.trans hc)
    · -- reaches k: moved from the history list to the countable list
      have hloc : n ∈ r.infL := by
        rcases List.mem_append.mp hnmem with h' | h'
        · exact h'
        · have h1 := hcc n h'
          have h2 : n.cnt + 1 = r.k := by simpa using hc2
          omega
      rw [← Option.some.inj h]
      refine ⟨hk, ?_, ?_, ?_, ?_, ?_, ?_, ?_⟩
      · intro m hm
        exact Nat.lt_succ_of_lt (hbi m ((eraseN_sublist _ _).subset hm))
      · intro m hm
        rcases List.mem_append.mp hm with hm' | hm'
        · exact Nat.lt_succ_of_lt (hbc m hm')
        · rcases List.mem_singleton.mp hm' with rfl
          exact Nat.lt_succ_self _
      · exact List.Pairwise.sublist (eraseN_sublist _ _) hsi
      · rw [List.pairwise_append]
        refine ⟨hsc, List.pairwise_singleton _ _, ?_⟩
        intro a ha' b hb'
        rcases List.mem_singleton.mp hb' with rfl
        exact hbc a ha'
      · intro m hm
        exact hci m ((eraseN_sublist _ _).subset hm)
      · intro m hm
        rcases List.mem_append.mp hm with hm' | hm'
        · exact hcc m hm'
        · rcases List.mem_singleton.mp hm' with rfl
          show r.k ≤ n.cnt + 1
          have h2 : n.cnt + 1 = r.k := by simpa using hc2
          omega
      · rw [List.pairwise_append]
        refine ⟨List.Pairwise.sublist (eraseN_sublist _ _) hfi, ?_, ?_⟩
        · rw [List.pairwise_append]
          refine ⟨hfc, List.pairwise_singleton _ _, ?_⟩
          intro a ha' b hb'
          rcases List.mem_singleton.mp hb' with rfl
          show a.fid ≠ fid
          intro hc
          exact hfcross n hloc a ha' (hnfid.trans hc.symm)
        · intro a ha' b hb'
          rcases List.mem_append.mp hb' with hb'' | hb''
          · exact hfcross a ((eraseN_sublist _ _).subset ha') b hb''
          · rcases List.mem_singleton.mp hb'' with rfl
            exact eraseN_no_fid hfi fid a ha'
    · -- already at or above k: re-emplaced at the back of the countable list
      have hloc : n ∈ r.cntL := by
        rcases List.mem_append.mp hnmem with h' | h'
        · have h1 := hci n h'
          have h2 : n.cnt + 1 ≠ r.k := by simpa using hc2
          omega
        · exact h'
      rw [← Option.some.inj h]
      refine ⟨hk, ?_, ?_, hsi, ?_, hci, ?_, ?_⟩
      · intro m hm
        exact Nat.lt_succ_of_lt (hbi m hm)
      · intro m hm
        rcases List.mem_append.mp hm with hm' | hm'
        · exact Nat.lt_succ_of_lt (hbc m ((eraseN_sublist _ _).subset hm'))
        · rcases List.mem_singleton.mp hm' with rfl
          exact Nat.lt_succ_self _
      · rw [List.pairwise_append]
        refine ⟨List.Pairwise.sublist (eraseN_sublist _ _) hsc,
          List.pairwise_singleton _ _, ?_⟩
        intro a ha' b hb'
        rcases List.mem_singleton.mp hb' with rfl
        exact hbc a ((eraseN_sublist _ _).subset ha')
      · intro m hm
        rcases List.mem_append.mp hm with hm' | hm'
        · exact hcc m ((eraseN_sublist _ _).subset hm')
        · rcases List.mem_singleton.mp hm' with rfl
          have h1 := hcc n hloc
          show r.k ≤ n.cnt + 1
          omega
      · rw [List.pairwise_append]
        refine ⟨hfi, ?_, ?_⟩
        · rw [List.pairwise_append]
          refine ⟨List.Pairwise.sublist (eraseN_sublist _ _) hfc,
            List.pairwise_singleton _ _, ?_⟩
          intro a ha' b hb'
          rcases List.mem_singleton.mp hb' with rfl
          exact eraseN_no_fid hfc fid a ha'
        · intro a ha' b hb'
          rcases List.mem_append.mp hb' with hb'' | hb''
          · exact hfcross a ha' b ((eraseN_sublist _ _).subset hb'')
          · rcases List.mem_singleton.mp hb'' with rfl
            show a.fid ≠ fid
            intro hc
            exact hfcross a ha' n hloc (hc.trans hnfid.symm)

theorem removeInternal_k {r r' : LRUK} {fid : Int}
    (h : r.removeInternal fid = some r') : r'.k = r.k := by
  unfold LRUK.removeInternal at h
  cases hfn : r.findN fid <;> simp only [hfn] at h
  · rw [← Option.some.inj h]
  · split_ifs at h
    · rw [← Option.some.inj h]
    · rw [← Option.some.inj h]

theorem setEvictable_k {r r' : LRUK} {fid : Int} {b : Bool}
    (h : r.setEvictable fid b = some r') : r'.k = r.k := by
  unfold LRUK.setEvictable at h
  by_cases ha : r.assertOk fid = true
  · rw [if_pos ha] at h
    cases hfn : r.findN fid <;> simp only [hfn] at h
    · rw [← Option.some.inj h]
    · split_ifs at h <;> rw [← Option.some.inj h]
  · rw [if_neg ha] at h
    exact absurd h (by simp)

theorem recordAccess_k {r r' : LRUK} {fid : Int}
    (h : r.recordAccess fid = some r') : r'.k = r.k := by
  unfold LRUK.recordAccess at h
  by_cases ha : r.assertOk fid = true
  · rw [if_pos ha] at h
    cases hfn : r.findN fid <;> simp only [hfn] at h
    · split_ifs at h <;> rw [← Option.some.inj h]
    · split_ifs at h <;> rw [← Option.some.inj h]
  · rw [if_neg ha] at h
    exact absurd h (by simp)

theorem evictF_k {r r' : LRUK} {fid : Int}
    (h : r.evictF = some (fid, r')) : r'.k = r.k := by
  unfold LRUK.evictF at h
  cases h1 : r.infL.find? (fun n => n.evict) with
  | some n =>
    simp only [h1] at h
    rcases Option.map_eq_some'.mp h with ⟨r'', hr, heq⟩
    cases heq
    exact removeInternal_k hr
  | none =>
    simp only [h1] at h
    cases h2 : r.cntL.find? (fun n => n.evict) with
    | some n =>
      simp only [h2] at h
      rcases Option.map_eq_some'.mp h with ⟨r'', hr, heq⟩
      cases heq
      exact removeInternal_k hr
    | none =>
      simp only [h2] at h
      exact absurd h (by simp)

theorem ok_evictF {r r' : LRUK} {fid : Int}
    (h : r.evictF = some (fid, r')) (hOk : r.Ok) : r'.Ok := by
  unfold LRUK.evictF at h
  cases h1 : r.infL.find? (fun n => n.evict) with
  | some n =>
    simp only [h1] at h
    rcases Option.map_eq_some'.mp h with ⟨r'', hr, heq⟩
    cases heq
    exact ok_removeInternal hr hOk
  | none =>
    simp only [h1] at h
    cases h2 : r.cntL.find? (fun n => n.evict) with
    | some n =>
      simp only [h2] at h
      rcases Option.map_eq_some'.mp h with ⟨r'', hr, heq⟩
      cases heq
      exact ok_removeInternal hr hOk
    | none =>
      simp only [h2] at h
      exact absurd h (by simp)

/-- Every reachable replacer state with the spec's configuration constraint
`k ≥ 1` satisfies the invariant. -/
theorem reach_ok (r : LRUK) (hR : LRUK.Reach r) (hk : 1 ≤ r.k) : r.Ok := by
  induction hR with
  | init n k =>
    refine ⟨hk, ?_, ?_, ?_, ?_, ?_, ?_, ?_⟩ <;> simp [LRUK.mk0]
  | record hR' heq ih =>
    exact ok_recordAccess heq (ih (by rw [← recordAccess_k heq]; exact hk))
  | setEv hR' heq ih =>
    exact ok_setEvictable heq (ih (by rw [← setEvictable_k heq]; exact hk))
  | remove hR' heq ih =>
    exact ok_removeInternal heq (ih (by rw [← removeInternal_k heq]; exact hk))
  | evict hR' heq ih =>
    exact ok_evictF heq (ih (by rw [← evictF_k heq]; exact hk))

theorem removeInternal_isSome_of_evict {r : LRUK} {n : RNode} (hOk : r.Ok)
    (hmem : n ∈ r.infL ++ r.cntL) (he : n.evict = true) :
    ∃ r', r.removeInternal n.fid = some r' := by
  obtain ⟨-, -, -, -, -, -, -, hf⟩ := hOk
  have hfind : r.findN n.fid = some n := by
    rw [findN_eq]
    exact find?_fid_unique hf hmem
  unfold LRUK.removeInternal
  simp only [hfind]
  rw [if_pos he]
  by_cases hc : n.cnt ≥ r.k
  · rw [if_pos hc]
    exact ⟨_, rfl⟩
  · rw [if_neg hc]
    exact ⟨_, rfl⟩

theorem evictF_none_iff_ok (r : LRUK) (hOk : r.Ok) :
    r.evictF = none
      ↔ (∀ n ∈ r.infL, n.evict = false) ∧ (∀ n ∈ r.cntL, n.evict = false) := by
  constructor
  · intro h
    unfold LRUK.evictF at h
    cases h1 : r.infL.find? (fun n => n.evict) with
    | some n =>
      simp only [h1] at h
      have hmem : n ∈ r.infL ++ r.cntL :=
        List.mem_append_left _ (List.mem_of_find?_eq_some h1)
      have he : n.evict = true := List.find?_some h1
      rcases removeInternal_isSome_of_evict hOk hmem he with ⟨r', hr⟩
      rw [hr] at h
      simp at h
    | none =>
      simp only [h1] at h
      cases h2 : r.cntL.find? (fun n => n.evict) with
      | some n =>
        simp only [h2] at h
        have hmem : n ∈ r.infL ++ r.cntL :=
          List.mem_append_right _ (List.mem_of_find?_eq_some h2)
        have he : n.evict = true := List.find?_some h2
        rcases removeInternal_isSome_of_evict hOk hmem he with ⟨r', hr⟩
        rw [hr] at h
        simp at h
      | none =>
        refine ⟨fun n hn => ?_, fun n hn => ?_⟩
        · have := List.find?_eq_none.mp h1 n hn
          simpa using this
        · have := List.find?_eq_none.mp h2 n hn
          simpa using this
  · intro hall
    have e1 : r.infL.find? (fun n => n.evict) = none :=
      List.find?_eq_none.mpr (fun n hn => by simp [hall.1 n hn])
    have e2 : r.cntL.find? (fun n => n.evict) = none :=
      List.find?_eq_none.mpr (fun n hn => by simp [hall.2 n hn])
    unfold LRUK.evictF
    simp only [e1, e2]

/-! ## Buffer pool manager lemmas -/

theorem recordAccess_isSome (r : LRUK) (fid : Int)
    (ha : r.assertOk fid = true) : (r.recordAccess fid).isSome = true := by
  cases hres : r.recordAccess fid with
  | some r2 => rfl
  | none =>
    exfalso
    unfold LRUK.recordAccess at hres
    rw [if_pos ha] at hres
    cases hfn : r.findN fid <;> simp only [hfn] at hres
    · split_ifs at hres
    · split_ifs at hres

theorem setEvictable_isSome (r : LRUK) (fid : Int) (b : Bool)
    (ha : r.assertOk fid = true) : ∃ r', r.setEvictable fid b = some r' := by
  cases hres : r.setEvictable fid b with
  | some r2 => exact ⟨r2, rfl⟩
  | none =>
    exfalso
    unfold LRUK.setEvictable at hres
    rw [if_pos ha] at hres
    cases hfn : r.findN fid <;> simp only [hfn] at hres
    · exact Option.noConfusion hres
    · split_ifs at hres

theorem getNewPageGo_reads {fuel : Nat} {s : BPM} {fid pid0 pid : Int}
    {s1 : BPM} (h : BPM.getNewPageGo fuel s fid pid0 = some (pid, s1)) :
    s1.reads = s.reads := by
  unfold BPM.getNewPageGo at h
  cases h1 : s.getPage fid <;> simp only [h1] at h
  · exact absurd h (by simp)
  · rename_i pg
    split at h
    · exact absurd h (by simp)
    · split at h
      · exact absurd h (by simp)
      · split at h
        · exact absurd h (by simp)
        · have h2 := Option.some.inj h
          have hs1 : s1 = _ := (congrArg Prod.snd h2).symm
          rw [hs1]
          split <;> split <;> rfl

theorem getNewPage_reads {fuel : Nat} {s : BPM} {pid0 pid : Int} {s1 : BPM}
    (h : BPM.getNewPage fuel s pid0 = some (pid, s1)) : s1.reads = s.reads := by
  unfold BPM.getNewPage at h
  cases hf : s.freeL with
  | cons f rest =>
    simp only [hf] at h
    exact (getNewPageGo_reads h).trans rfl
  | nil =>
    simp only [hf] at h
    split at h
    · split at h
      · exact (getNewPageGo_reads h).trans rfl
      · exact absurd h (by simp)
    · have h2 := Option.some.inj h
      injection h2 with ha hb
      rw [← hb]

theorem fetchFinish_spec {s : BPM} {p fid : Int} {s' : BPM}
    (h : s.fetchFinish p = some (some fid, s')) :
    s'.reads = s.reads ++ [p] ∧ s'.disk = s.disk ∧
    (s'.getPage fid).map PageFrame.data = some (diskRead s.disk p) := by
  unfold BPM.fetchFinish at h
  cases h1 : s.pt.findT p <;> simp only [h1] at h
  · exact absurd h (by simp)
  · rename_i fid0
    cases h2 : s.getPage fid0 <;> simp only [h2] at h
    · exact absurd h (by simp)
    · rename_i pg
      have h3 := Option.some.inj h
      have hfid : fid0 = fid := Option.some.inj (congrArg Prod.fst h3)
      have hs' : s' = _ := (congrArg Prod.snd h3).symm
      subst hfid
      rw [hs']
      refine ⟨rfl, rfl, ?_⟩
      unfold BPM.getPage at h2 ⊢
      by_cases hge : (0 : Int) ≤ fid0
      · rw [if_pos hge] at h2 ⊢
        have hlt : fid0.toNat < s.pages.length := by
          rcases List.get?_eq_some.mp h2 with ⟨hl, -⟩
          exact hl
        show ((s.pages.set fid0.toNat _).get? fid0.toNat).map PageFrame.data = _
        rw [List.get?_eq_getElem?, List.getElem?_set_self (by simpa using hlt)]
        rfl
      · rw [if_neg hge] at h2
        exact absurd h2 (by simp)

/-- `lruW2` is reachable by the public replacer operations. -/
theorem lruW2_reach : LRUK.Reach lruW2 :=
  @LRUK.Reach.setEv ⟨3, 2, [⟨0, 1, false, 0, 0⟩], [], 0, 1⟩ lruW2 0 true
    (@LRUK.Reach.record (LRUK.mk0 3 2) ⟨3, 2, [⟨0, 1, false, 0, 0⟩], [], 0, 1⟩ 0
      (LRUK.Reach.init 3 2) rfl) rfl

/-!
## The claims
-/

/-- C1: the spec says a `FetchPgImp` hit pins the frame, and that two
successive fetches of the same page leave the pin count at 2.  The code
never increments `pin_count_` on a hit: on a one-frame pool, fetching page 0
twice returns frame 0 both times with the pin count still at 1 (set by
`GetNewPage` on the initial miss), not 2. -/
theorem C1_fetch_does_not_pin :
    (((BPM.mk0 1 2 4).fetchPage 9 0).bind (fun r => r.2.fetchPage 9 0)).map
      (fun r => (r.1, (r.2.getPage 0).map PageFrame.pin))
      = some (some 0, some 1) := rfl

/-- C2: every `FetchPgImp` call that returns a frame issues
`disk_manager_->ReadPage` of that page — also on a hit — so the returned
frame's buffer holds the on-disk image and the read is logged. -/
theorem C2_fetch_always_reads (fuel : Nat) (s : BPM) (p fid : Int) (s2 : BPM)
    (h : s.fetchPage fuel p = some (some fid, s2)) :
    s2.reads = s.reads ++ [p] ∧
    (s2.getPage fid).map PageFrame.data = some (diskRead s2.disk p) := by
  unfold BPM.fetchPage at h
  cases h0 : s.pt.findT p with
  | some f0 =>
    simp only [h0] at h
    obtain ⟨hr, hd, hg⟩ := fetchFinish_spec h
    exact ⟨hr, by rw [hd]; exact hg⟩
  | none =>
    simp only [h0] at h
    cases hn : s.getNewPage fuel p with
    | none =>
      simp only [hn] at h
      exact Option.noConfusion h
    | some r =>
      obtain ⟨pid1, s1⟩ := r
      simp only [hn] at h
      split at h
      · simp at h
      · obtain ⟨hr, hd, hg⟩ := fetchFinish_spec h
        have hnr : s1.reads = s.reads := getNewPage_reads hn
        constructor
        · rw [hr]
          show s1.reads ++ [p] = s.reads ++ [p]
          rw [hnr]
        · rw [hd]
          exact hg

/-- C2, instantiated: fetching resident page 0 at `bpmW1` (stale buffer 5,
disk content 7) reloads the buffer from disk and logs the read. -/
theorem C2_fetch_always_reads_witness :
    bpmW1f.reads = bpmW1.reads ++ [0] ∧
    (bpmW1f.getPage 0).map PageFrame.data = some (diskRead bpmW1f.disk 0) :=
  C2_fetch_always_reads 9 bpmW1 0 0 bpmW1f rfl

/-- C3: after every completed `Insert` on a table satisfying the directory
invariant, the invariant still holds and every directory entry's bucket is
referenced by exactly `2 ^ (global_depth - local_depth)` entries (the split
rewrites entries by their own index bit, which is what `rewriteDir`
embeds). -/
theorem C3_directory_refcount {K V : Type} [DecidableEq K]
    (t t2 : EHT K V) (k : K) (v : V) (fuel s : Nat)
    (hInv : t.Inv) (h : t.insertT k v fuel = some (t2, s)) :
    t2.Inv ∧ ∀ i < t2.dir.length,
      t2.refCount (t2.dirAt i) = 2 ^ (t2.globalDepth - (t2.bucketAt i).depth) := by
  have h2 := inv_insertGo k v fuel t t2 s h hInv
  exact ⟨h2, refCount_of_inv t2 h2⟩

/-- C3, instantiated at the one-split insertion `ehtW1 → ehtW2`. -/
theorem C3_directory_refcount_witness :
    ehtW2.Inv ∧ ∀ i < ehtW2.dir.length,
      ehtW2.refCount (ehtW2.dirAt i)
        = 2 ^ (ehtW2.globalDepth - (ehtW2.bucketAt i).depth) :=
  C3_directory_refcount ehtW1 ehtW2 1 11 9 1 (by decide) rfl

/-- C4: an `Insert` that performs `s` splits increases `num_buckets_` by
exactly `s` (each split increments it once; a splitless insert leaves it
unchanged). -/
theorem C4_splits_count {K V : Type} [DecidableEq K]
    (t t2 : EHT K V) (k : K) (v : V) (fuel s : Nat)
    (h : t.insertT k v fuel = some (t2, s)) :
    t2.numBuckets = t.numBuckets + s :=
  insertGo_numBuckets k v fuel t t2 s h

/-- C4, instantiated at the one-split insertion `ehtW1 → ehtW2`. -/
theorem C4_splits_count_witness : ehtW2.numBuckets = ehtW1.numBuckets + 1 :=
  C4_splits_count ehtW1 ehtW2 1 11 9 1 rfl

/-- C5 (amended): on every reachable replacer state with `k ≥ 1`, `Evict`
returns `false` exactly when no tracked frame is evictable; a successful
eviction takes the front-most evictable node of `inf_list_` (History) when
one exists — the least-recently re-emplaced one, i.e. minimal ghost
timestamp `last` — and only otherwise the front-most evictable node of
`countable_list_` (Cache), likewise of minimal `last`.  (The original
claim's "earliest-first-recorded" order is refuted by
`C5_evict_counterexample`: `RecordAccess` re-emplaces a History node at the
back, so History is not kept in first-record order.) -/
theorem C5_evict_order (r : LRUK) (hR : LRUK.Reach r) (hk : 1 ≤ r.k) :
    (r.evictF = none ↔
      (∀ n ∈ r.infL, n.evict = false) ∧ (∀ n ∈ r.cntL, n.evict = false)) ∧
    (∀ fid r2, r.evictF = some (fid, r2) →
      ((∃ n ∈ r.infL, n.evict = true) →
        ∃ n ∈ r.infL, n.evict = true ∧ fid = n.fid ∧
          ∀ m ∈ r.infL, m.evict = true → n.last ≤ m.last) ∧
      ((∀ n ∈ r.infL, n.evict = false) →
        ∃ n ∈ r.cntL, n.evict = true ∧ fid = n.fid ∧
          ∀ m ∈ r.cntL, m.evict = true → n.last ≤ m.last)) := by
  refine ⟨evictF_none_iff_ok r (reach_ok r hR hk), ?_⟩
  intro fid r2 h
  obtain ⟨-, -, -, hsi, hsc, -, -, -⟩ := reach_ok r hR hk
  unfold LRUK.evictF at h
  cases h1 : r.infL.find? (fun n => n.evict) with
  | some n =>
    simp only [h1] at h
    rcases Option.map_eq_some'.mp h with ⟨r3, hrm, heq⟩
    injection heq with hf hr
    subst hf
    obtain ⟨he, hmem, hmin⟩ := find?_min_last hsi h1
    refine ⟨fun _ => ⟨n, hmem, he, rfl, hmin⟩, fun hnone => ?_⟩
    exact absurd (hnone n hmem) (by simp [he])
  | none =>
    simp only [h1] at h
    cases h2 : r.cntL.find? (fun n => n.evict) with
    | some n =>
      simp only [h2] at h
      rcases Option.map_eq_some'.mp h with ⟨r3, hrm, heq⟩
      injection heq with hf hr
      subst hf
      obtain ⟨he, hmem, hmin⟩ := find?_min_last hsc h2
      refine ⟨fun hex => ?_, fun _ => ⟨n, hmem, he, rfl, hmin⟩⟩
      obtain ⟨m, hm, hme⟩ := hex
      exact absurd hme (List.find?_eq_none.mp h1 m hm)
    | none =>
      simp only [h2] at h
      exact absurd h (by simp)

/-- C5, instantiated at the reachable state `lruW2`, which holds one
evictable History node, so `Evict` cannot return `false` there. -/
theorem C5_evict_order_witness :
    lruW2.evictF = none ↔
      (∀ n ∈ lruW2.infL, n.evict = false) ∧ (∀ n ∈ lruW2.cntL, n.evict = false) :=
  (C5_evict_order lruW2 lruW2_reach (by decide)).1

/-- C5, counterexample to the original claim: after `RecordAccess(1);
RecordAccess(2); RecordAccess(1)` (k = 3) with both frames evictable, frame
1 is the earliest-first-recorded evictable History frame (`first` 0 against
frame 2's 1), yet `Evict` returns frame 2 — the third access re-emplaced
frame 1's node behind frame 2's. -/
theorem C5_evict_counterexample :
    ((((((LRUK.mk0 4 3).recordAccess 1).bind (fun a => a.recordAccess 2)).bind
        (fun a => a.recordAccess 1)).bind (fun a => a.setEvictable 1 true)).bind
        (fun a => a.setEvictable 2 true)) = some lruCex ∧
    (∃ n ∈ lruCex.infL, n.fid = 1 ∧ n.evict = true ∧ n.cnt < lruCex.k ∧
      ∀ m ∈ lruCex.infL, m.fid ≠ 1 → n.first < m.first) ∧
    lruCex.evictF.map Prod.fst = some 2 ∧
    lruCex.evictF.map Prod.fst ≠ some 1 := by decide

/-- C6: the spec says frame ids outside `[0, pool_size)` fail the fatal
precondition of `RecordAccess`/`SetEvictable`.  The assertion the code
checks is `frame_id <= (int)replacer_size_`: it passes — and both
operations complete — at `frame_id = pool_size` and at every negative
`frame_id`, both outside the range; ids inside the range do pass, as the
spec says. -/
theorem C6_assert_off_by_one :
    (∀ numFrames k : Nat,
      (LRUK.mk0 numFrames k).assertOk (numFrames : Int) = true ∧
      ((LRUK.mk0 numFrames k).recordAccess (numFrames : Int)).isSome = true ∧
      ((LRUK.mk0 numFrames k).setEvictable (numFrames : Int) true).isSome = true) ∧
    (∀ numFrames k : Nat,
      (LRUK.mk0 numFrames k).assertOk (-1) = true ∧
      ((LRUK.mk0 numFrames k).recordAccess (-1)).isSome = true) ∧
    (∀ numFrames k : Nat, ∀ fid : Int, 0 ≤ fid → fid < (numFrames : Int) →
      (LRUK.mk0 numFrames k).assertOk fid = true) := by
  refine ⟨fun n k => ⟨?_, ?_, ?_⟩, fun n k => ⟨?_, ?_⟩, fun n k fid h1 h2 => ?_⟩
  · simp [LRUK.assertOk, LRUK.mk0]
  · exact recordAccess_isSome _ _ (by simp [LRUK.assertOk, LRUK.mk0])
  · obtain ⟨r2, hr2⟩ := setEvictable_isSome (LRUK.mk0 n k) n true
      (by simp [LRUK.assertOk, LRUK.mk0])
    rw [hr2]
    rfl
  · simp only [LRUK.assertOk, LRUK.mk0]
    rw [decide_eq_true_eq]
    omega
  · exact recordAccess_isSome _ _
      (by simp only [LRUK.assertOk, LRUK.mk0]; rw [decide_eq_true_eq]; omega)
  · simp only [LRUK.assertOk, LRUK.mk0]
    rw [decide_eq_true_eq]
    omega

/-- C6, instantiated: the in-range id 2 passes the assertion on
`LRUKReplacer(4, 2)`. -/
theorem C6_assert_off_by_one_witness : (LRUK.mk0 4 2).assertOk 2 = true :=
  C6_assert_off_by_one.2.2 4 2 2 (by decide) (by decide)

/-- C7: `UnpinPgImp` returns `false` leaving the state unchanged when the
page is not resident or the frame's pin count is already ≤ 0; otherwise it
ORs the flag into `is_dirty_`, decrements `pin_count_`, marks the frame
evictable exactly when the new pin count is zero (granted the replacer
assertion its call makes), and returns `true`. -/
theorem C7_unpin_branches (s : BPM) (p : Int) (d : Bool) :
    (s.pt.findT p = none → s.unpinPage p d = some (false, s)) ∧
    (∀ fid pg, s.pt.findT p = some fid → s.getPage fid = some pg →
      pg.pin ≤ 0 → s.unpinPage p d = some (false, s)) ∧
    (∀ fid pg, s.pt.findT p = some fid → s.getPage fid = some pg →
      1 < pg.pin → s.unpinPage p d = some (true,
        { s with pages := s.pages.set fid.toNat { pg with dirty := pg.dirty || d, pin := pg.pin - 1 } })) ∧
    (∀ fid pg, s.pt.findT p = some fid → s.getPage fid = some pg →
      pg.pin = 1 → s.repl.assertOk fid = true →
      ∃ r2, s.repl.setEvictable fid true = some r2 ∧
        s.unpinPage p d = some (true,
          { s with pages := s.pages.set fid.toNat { pg with dirty := pg.dirty || d, pin := pg.pin - 1 }, repl := r2 })) := by
  refine ⟨?_, ?_, ?_, ?_⟩
  · intro h0
    simp only [BPM.unpinPage, h0]
  · intro fid pg h1 h2 h3
    simp only [BPM.unpinPage, h1, h2]
    rw [if_pos h3]
  · intro fid pg h1 h2 h3
    simp only [BPM.unpinPage, h1, h2]
    rw [if_neg (by omega), if_neg (by omega)]
  · intro fid pg h1 h2 h3 h4
    obtain ⟨r2, hr2⟩ := setEvictable_isSome s.repl fid true h4
    refine ⟨r2, hr2, ?_⟩
    simp only [BPM.unpinPage, h1, h2]
    rw [if_neg (by omega), if_pos (show pg.pin - 1 = 0 by omega)]
    simp only [hr2]

/-- C7, instantiated: a miss returns `false` unchanged; an unpinned resident
frame returns `false` unchanged; a pin count of 2 drops to 1 with the dirty
flag ORed in. -/
theorem C7_unpin_branches_witness :
    (BPM.mk0 1 2 4).unpinPage 0 true = some (false, BPM.mk0 1 2 4) ∧
    bpmW1.unpinPage 0 true = some (false, bpmW1) ∧
    bpmW3.unpinPage 0 true = some (true, { bpmW3 with pages := [⟨0, 1, true, 5⟩] }) :=
  ⟨(C7_unpin_branches (BPM.mk0 1 2 4) 0 true).1 rfl,
   (C7_unpin_branches bpmW1 0 true).2.1 0 ⟨0, 0, false, 5⟩ rfl rfl (by decide),
   (C7_unpin_branches bpmW3 0 true).2.2.1 0 ⟨0, 2, false, 5⟩ rfl rfl (by decide)⟩

/-- C8: `DeletePgImp` returns `true` unchanged when the page is not
resident, `false` unchanged when the frame is pinned; otherwise it drops the
page-table binding, removes the frame from the replacer (granted the
removal completes), appends the frame to the free list, resets the frame to
`INVALID_PAGE_ID`/pin 0/clean/zeroed, and returns `true` (`DeallocatePage`
is the documented no-op). -/
theorem C8_delete_branches (s : BPM) (p : Int) :
    (s.pt.findT p = none → s.deletePage p = some (true, s)) ∧
    (∀ fid pg, s.pt.findT p = some fid → s.getPage fid = some pg →
      0 < pg.pin → s.deletePage p = some (false, s)) ∧
    (∀ fid pg r2, s.pt.findT p = some fid → s.getPage fid = some pg →
      pg.pin ≤ 0 → s.repl.removeF fid = some r2 →
      s.deletePage p = some (true,
        { s with pt := (s.pt.removeT p).1, repl := r2,
                 freeL := s.freeL ++ [fid],
                 pages := s.pages.set fid.toNat ⟨-1, 0, false, 0⟩ })) := by
  refine ⟨?_, ?_, ?_⟩
  · intro h0
    simp only [BPM.deletePage, h0]
  · intro fid pg h1 h2 h3
    simp only [BPM.deletePage, h1, h2]
    rw [if_pos h3]
  · intro fid pg r2 h1 h2 h3 h4
    simp only [BPM.deletePage, h1, h2]
    rw [if_neg (by omega)]
    simp only [h4]

/-- C8, instantiated at a fresh pool (miss), a pinned frame (`bpmW3`) and a
deletable frame (`bpmW4 → bpmW4del`). -/
theorem C8_delete_branches_witness :
    (BPM.mk0 1 2 4).deletePage 0 = some (true, BPM.mk0 1 2 4) ∧
    bpmW3.deletePage 0 = some (false, bpmW3) ∧
    bpmW4.deletePage 0 = some (true, bpmW4del) :=
  ⟨(C8_delete_branches (BPM.mk0 1 2 4) 0).1 rfl,
   (C8_delete_branches bpmW3 0).2.1 0 ⟨0, 2, false, 5⟩ rfl rfl (by decide),
   (C8_delete_branches bpmW4 0).2.2 0 ⟨0, 0, true, 5⟩ ⟨1, 2, [], [], 0, 1⟩ rfl rfl
     (by decide) rfl⟩

/-- C9: no completed `DeletePgImp` touches the disk or the write log — in
particular deleting a resident, unpinned, dirty frame discards the modified
bytes and the dirty flag (the frame is reset to a clean zeroed state) and
leaves the on-disk image unchanged. -/
theorem C9_delete_no_writeback (s : BPM) (p : Int) :
    (∀ b s2, s.deletePage p = some (b, s2) →
      s2.disk = s.disk ∧ s2.writes = s.writes) ∧
    (∀ fid pg r2, s.pt.findT p = some fid → s.getPage fid = some pg →
      pg.pin ≤ 0 → pg.dirty = true → s.repl.removeF fid = some r2 →
      ∃ s2, s.deletePage p = some (true, s2) ∧ s2.disk = s.disk ∧
        s2.writes = s.writes ∧ s2.getPage fid = some ⟨-1, 0, false, 0⟩) := by
  constructor
  · intro b s2 h
    unfold BPM.deletePage at h
    cases h0 : s.pt.findT p <;> simp only [h0] at h
    · injection h with h5
      injection h5 with hb hs
      rw [← hs]
      exact ⟨rfl, rfl⟩
    · rename_i fid
      cases h2 : s.getPage fid <;> simp only [h2] at h
      · exact Option.noConfusion h
      · rename_i pg
        split at h
        · injection h with h5
          injection h5 with hb hs
          rw [← hs]
          exact ⟨rfl, rfl⟩
        · split at h
          · exact Option.noConfusion h
          · injection h with h5
            injection h5 with hb hs
            rw [← hs]
            exact ⟨rfl, rfl⟩
  · intro fid pg r2 h1 h2 h3 hd h4
    have hdel : s.deletePage p = some (true,
        { s with pt := (s.pt.removeT p).1, repl := r2,
                 freeL := s.freeL ++ [fid],
                 pages := s.pages.set fid.toNat ⟨-1, 0, false, 0⟩ }) := by
      simp only [BPM.deletePage, h1, h2]
      rw [if_neg (by omega)]
      simp only [h4]
    refine ⟨_, hdel, rfl, rfl, ?_⟩
    unfold BPM.getPage at h2 ⊢
    by_cases hge : (0 : Int) ≤ fid
    · rw [if_pos hge] at h2 ⊢
      have hlt : fid.toNat < s.pages.length := by
        rcases List.get?_eq_some.mp h2 with ⟨hl, -⟩
        exact hl
      show (s.pages.set fid.toNat (⟨-1, 0, false, 0⟩ : PageFrame)).get? fid.toNat
        = some ⟨-1, 0, false, 0⟩
      rw [List.get?_eq_getElem?, List.getElem?_set_self (by simpa using hlt)]
    · rw [if_neg hge] at h2
      exact absurd h2 (by simp)

/-- C9, instantiated: deleting the dirty unpinned page of `bpmW4` leaves the
disk and write log untouched. -/
theorem C9_delete_no_writeback_witness :
    bpmW4del.disk = bpmW4.disk ∧ bpmW4del.writes = bpmW4.writes :=
  (C9_delete_no_writeback bpmW4 0).1 true bpmW4del rfl

/-- C10: the spec says inserting an existing key overwrites its value, so
`Insert(k, v1); Insert(k, v2); Find(k) = v2`.  On a table of bucket size 1
the first insert fills the bucket holding key 5; the second insert of the
same key hits `InsertInternal`'s `while (dir_[IndexOf(key)]->IsFull())`
before `Bucket::Insert` could overwrite, and every split re-routes the lone
pair with it, so the loop never exits: the model returns `none` (divergence)
for every fuel bound. -/
theorem C10_insert_overwrite_diverges :
    (EHT.init (V := Nat) (fun k => k) 1).insertT 5 100 9 = some (ehtC10b, 0) ∧
    ehtC10b.findT 5 = some 100 ∧
    ∀ fuel : Nat, ehtC10b.insertT 5 200 fuel = none := by
  refine ⟨rfl, rfl, fun fuel => ?_⟩
  exact insertGo_trap 5 100 200 fuel ehtC10b (by decide) rfl rfl

end Bustub
